import Mathlib

/-!
Shallow embedding of the MetaBuilder workflow plugin layer
(`src/workflow/plugins/rust`): the JSON-like `Value` model
(`serde_json::Value`), the typed input decoding helper (`get_input` /
`serde_json::from_value`), and the `execute` bodies of the node plugins.

Numbers (`f64` backed by `serde_json::Number`) are modelled as exact
rationals; `serde_json::Number` cannot represent NaN or an infinity, so
every in-memory number is a finite value, and every finite `f64` is a
rational whose denominator divides a power of ten.  Maps
(`serde_json::Map`, a `BTreeMap` with the default feature set) are
modelled as key-sorted association lists.  `HashMap` inputs/outputs are
modelled as association lists in insertion order; all properties stated
about them go through key lookup or the key list, never hash order.
-/

namespace MB

/-- `serde_json::Value`: the dynamic value model shared by every node. -/
inductive Value : Type where
  | null : Value
  | bool : Bool → Value
  | num  : ℚ → Value
  | str  : String → Value
  | arr  : List Value → Value
  | obj  : List (String × Value) → Value
  deriving Repr

/-- Named input (and output) mappings, `HashMap<String, Value>`. -/
abbrev Entries := List (String × Value)

/-- `inputs.get(key)` on the input mapping. -/
def getRaw (inputs : Entries) (k : String) : Option Value :=
  inputs.lookup k

/-! ### Structural equality of values

`serde_json::Value`'s `PartialEq` (used by `logic.equals` and
`logic.in`); Boolean-valued, defined by mutual structural recursion. -/

mutual

def Value.beq : Value → Value → Bool
  | .null, .null => true
  | .bool a, .bool b => a == b
  | .num a, .num b => a == b
  | .str a, .str b => a == b
  | .arr a, .arr b => Value.beqList a b
  | .obj a, .obj b => Value.beqObj a b
  | _, _ => false

def Value.beqList : List Value → List Value → Bool
  | [], [] => true
  | x :: xs, y :: ys => Value.beq x y && Value.beqList xs ys
  | _, _ => false

def Value.beqObj : List (String × Value) → List (String × Value) → Bool
  | [], [] => true
  | (k₁, v₁) :: xs, (k₂, v₂) :: ys => k₁ == k₂ && Value.beq v₁ v₂ && Value.beqObj xs ys
  | _, _ => false

end

instance : BEq Value := ⟨Value.beq⟩

mutual

def Value.decEq : (a b : Value) → Decidable (a = b)
  | .null, .null => isTrue rfl
  | .bool a, .bool b =>
    if h : a = b then isTrue (by rw [h]) else isFalse fun he => h (by cases he; rfl)
  | .num a, .num b =>
    if h : a = b then isTrue (by rw [h]) else isFalse fun he => h (by cases he; rfl)
  | .str a, .str b =>
    if h : a = b then isTrue (by rw [h]) else isFalse fun he => h (by cases he; rfl)
  | .arr a, .arr b =>
    match Value.decEqList a b with
    | isTrue h => isTrue (by rw [h])
    | isFalse h => isFalse fun he => h (by cases he; rfl)
  | .obj a, .obj b =>
    match Value.decEqObj a b with
    | isTrue h => isTrue (by rw [h])
    | isFalse h => isFalse fun he => h (by cases he; rfl)
  | .null, .bool _ | .null, .num _ | .null, .str _ | .null, .arr _ | .null, .obj _
  | .bool _, .null | .bool _, .num _ | .bool _, .str _ | .bool _, .arr _ | .bool _, .obj _
  | .num _, .null | .num _, .bool _ | .num _, .str _ | .num _, .arr _ | .num _, .obj _
  | .str _, .null | .str _, .bool _ | .str _, .num _ | .str _, .arr _ | .str _, .obj _
  | .arr _, .null | .arr _, .bool _ | .arr _, .num _ | .arr _, .str _ | .arr _, .obj _
  | .obj _, .null | .obj _, .bool _ | .obj _, .num _ | .obj _, .str _ | .obj _, .arr _ =>
    isFalse fun he => by cases he

def Value.decEqList : (a b : List Value) → Decidable (a = b)
  | [], [] => isTrue rfl
  | x :: xs, y :: ys =>
    match Value.decEq x y, Value.decEqList xs ys with
    | isTrue h₁, isTrue h₂ => isTrue (by rw [h₁, h₂])
    | isFalse h₁, _ => isFalse fun he => h₁ (by cases he; rfl)
    | _, isFalse h₂ => isFalse fun he => h₂ (by cases he; rfl)
  | [], _ :: _ => isFalse fun he => by cases he
  | _ :: _, [] => isFalse fun he => by cases he

def Value.decEqObj : (a b : List (String × Value)) → Decidable (a = b)
  | [], [] => isTrue rfl
  | (k₁, v₁) :: xs, (k₂, v₂) :: ys =>
    if hk : k₁ = k₂ then
      match Value.decEq v₁ v₂, Value.decEqObj xs ys with
      | isTrue h₁, isTrue h₂ => isTrue (by rw [hk, h₁, h₂])
      | isFalse h₁, _ => isFalse fun he => h₁ (by cases he; rfl)
      | _, isFalse h₂ => isFalse fun he => h₂ (by cases he; rfl)
    else isFalse fun he => hk (by cases he; rfl)
  | [], _ :: _ => isFalse fun he => by cases he
  | _ :: _, [] => isFalse fun he => by cases he

end

instance : DecidableEq Value := Value.decEq

/-! ### Typed input decoding

`serde_json::from_value` at each concrete type a node requests, composed
with map lookup as in the shared `get_input` helper of `plugin.rs`: a
failed decode yields `none` and the caller falls back to the per-key
default.  An `f64` decodes only from `Number`; an `i64` only from an
integral `Number`; a `String` only from `String`; a `Vec<T>` only from an
`Array` whose every element decodes at `T`. -/

def asNum : Value → Option ℚ
  | .num q => some q
  | _ => none

def asInt : Value → Option ℤ
  | .num q => if q.den = 1 then some q.num else none
  | _ => none

def asStr : Value → Option String
  | .str s => some s
  | _ => none

def asBool : Value → Option Bool
  | .bool b => some b
  | _ => none

def asList : Value → Option (List Value)
  | .arr l => some l
  | _ => none

/-- Element-wise decoding of a `Vec<T>`: all elements must decode or the
whole decode fails. -/
def decodeList {α : Type} (dec : Value → Option α) : List Value → Option (List α)
  | [] => some []
  | v :: rest =>
    match dec v with
    | some a => (decodeList dec rest).map (a :: ·)
    | none => none

def asNumList : Value → Option (List ℚ)
  | .arr l => decodeList asNum l
  | _ => none

def asStrList : Value → Option (List String)
  | .arr l => decodeList asStr l
  | _ => none

def asListList : Value → Option (List (List Value))
  | .arr l => decodeList asList l
  | _ => none

/-- `get_input::<T>(inputs, key)` from `plugin.rs`: look the key up and
decode it, `None` on absence or decode failure. -/
def get_input {α : Type} (dec : Value → Option α) (inputs : Entries) (k : String) :
    Option α :=
  (getRaw inputs k).bind dec

/-! ### Runtime argument

Nodes receive `runtime: Option<&dyn Any>` and downcast it to
`HashMap<String, Value>`.  `Rt.other` models a runtime value of any other
dynamic type (the downcast fails). -/

inductive Rt : Type where
  | store (s : Entries) : Rt
  | other : Rt

/-- The `downcast_ref::<HashMap<String, Value>>()` step, combined with
the `Option` of the runtime argument. -/
def downcastStore : Option Rt → Option Entries
  | some (.store s) => some s
  | _ => none

/-- `store.contains_key(&k)`. -/
def storeContains (s : Entries) (k : String) : Bool :=
  (s.lookup k).isSome

/-! ### String helpers

The Rust nodes use `str` methods on UTF-8 text; they are modelled on the
character list of the Lean string.  Case mapping is modelled on the ASCII
range (Rust's `to_lowercase`/`to_uppercase` additionally apply Unicode
case folding outside ASCII; no claim depends on that range).  Whitespace
for `trim` is modelled as the ASCII whitespace characters. -/

def asciiLowerChar (c : Char) : Char :=
  if 'A' ≤ c ∧ c ≤ 'Z' then Char.ofNat (c.toNat + 32) else c

def asciiUpperChar (c : Char) : Char :=
  if 'a' ≤ c ∧ c ≤ 'z' then Char.ofNat (c.toNat - 32) else c

def strLower (s : String) : String := .mk (s.data.map asciiLowerChar)

def strUpper (s : String) : String := .mk (s.data.map asciiUpperChar)

def isWsChar (c : Char) : Bool :=
  c = ' ' || c = '\t' || c = '\n' || c = '\r'

/-- `str::trim`. -/
def strTrim (s : String) : String :=
  .mk (((s.data.dropWhile isWsChar).reverse.dropWhile isWsChar).reverse)

/-- Code-point (equivalently UTF-8 byte) lexicographic strict order on
strings, the order of Rust's `String: Ord` and of `BTreeMap` keys. -/
def ltCharList : List Char → List Char → Bool
  | [], [] => false
  | [], _ :: _ => true
  | _ :: _, [] => false
  | a :: as, b :: bs => if a < b then true else if b < a then false else ltCharList as bs

def strLt (a b : String) : Bool := ltCharList a.data b.data

/-- `str::contains` with a string pattern. -/
def containsSub (hay needle : List Char) : Bool :=
  needle.isPrefixOf hay ||
    match hay with
    | [] => false
    | _ :: t => containsSub t needle

/-- `slice::join` / string join with separator. -/
def joinSep (sep : String) : List String → String
  | [] => ""
  | [x] => x
  | x :: xs => x ++ sep ++ joinSep sep xs

/-- `str::split` by a non-empty string separator (`c₀ :: sepRest`). -/
def splitOnSep (c₀ : Char) (sepRest : List Char) (s : List Char) : List (List Char) :=
  go s []
where
  go : List Char → List Char → List (List Char)
    | [], acc => [acc.reverse]
    | c :: rest, acc =>
      if (c₀ :: sepRest).isPrefixOf (c :: rest) then
        acc.reverse :: go (rest.drop sepRest.length) []
      else
        go rest (c :: acc)
  termination_by l _ => l.length
  decreasing_by
    · simp only [List.length_cons, List.length_drop]
      omega
    · simp only [List.length_cons]
      omega

/-! ### JSON serialization (`serde_json::to_string`, compact)

Numbers are printed as an optional sign, the integer digits, and — when
the denominator is not 1 — a point and a fixed block of fractional
digits.  `decExp d` is the number of fractional digits: the least `k`
with `d ∣ 10^k`.  This covers every number a `serde_json::Value` can
hold: any finite `f64` has a denominator `2^e`, which divides `10^e`.
Strings are printed with serde's escaping: `"` and `\` are escaped,
control characters below `0x20` print as `\b \t \n \f \r` or `\u00XX`
with lowercase hex, everything else passes through. -/

def digitChar (n : ℕ) : Char :=
  ['0', '1', '2', '3', '4', '5', '6', '7', '8', '9'].getD n '0'

def hexChar (n : ℕ) : Char :=
  if n < 10 then digitChar n
  else ['a', 'b', 'c', 'd', 'e', 'f'].getD (n - 10) '0'

def natDigitsAux : ℕ → ℕ → List Char
  | 0, _ => []
  | fuel + 1, n => if n = 0 then [] else natDigitsAux fuel (n / 10) ++ [digitChar (n % 10)]

/-- Decimal digits of a natural number, most significant first. -/
def natChars (n : ℕ) : List Char :=
  if n = 0 then ['0'] else natDigitsAux (n + 1) n

/-- Exactly `k` decimal digits of `m` (which satisfies `m < 10^k` at use
sites), zero-padded, most significant first. -/
def natDigitsFix : ℕ → ℕ → List Char
  | 0, _ => []
  | k + 1, m => natDigitsFix k (m / 10) ++ [digitChar (m % 10)]

/-- Least `k ≤ d` with `d ∣ 10^k` (0 when none exists; the round-trip
theorems only use denominators where one exists). -/
def decExp (d : ℕ) : ℕ :=
  (((List.range (d + 1)).find? fun k => 10 ^ k % d == 0).getD 0)

/-- Decimal text of a rational number. -/
def numChars (q : ℚ) : List Char :=
  let k := decExp q.den
  let scaled := q.num.natAbs * 10 ^ k / q.den
  let sign : List Char := if q.num < 0 then ['-'] else []
  if k = 0 then sign ++ natChars scaled
  else sign ++ natChars (scaled / 10 ^ k) ++ '.' :: natDigitsFix k (scaled % 10 ^ k)

/-- serde's escaping of one character inside a JSON string literal. -/
def escapeChar (c : Char) : List Char :=
  if c = '"' then ['\\', '"']
  else if c = '\\' then ['\\', '\\']
  else if c.toNat < 0x20 then
    if c = '\x08' then ['\\', 'b']
    else if c = '\t' then ['\\', 't']
    else if c = '\n' then ['\\', 'n']
    else if c = '\x0c' then ['\\', 'f']
    else if c = '\r' then ['\\', 'r']
    else ['\\', 'u', '0', '0', hexChar (c.toNat / 16), hexChar (c.toNat % 16)]
  else [c]

/-- A JSON string literal, quotes included. -/
def strChars (s : String) : List Char :=
  '"' :: (s.data.map escapeChar).flatten ++ ['"']

mutual

/-- `serde_json::to_string` (compact): text of a value, as characters. -/
def printValue : Value → List Char
  | .null => 'n' :: ['u', 'l', 'l']
  | .bool true => 't' :: ['r', 'u', 'e']
  | .bool false => 'f' :: ['a', 'l', 's', 'e']
  | .num q => numChars q
  | .str s => strChars s
  | .arr l => '[' :: printArr l ++ [']']
  | .obj m => '{' :: printObj m ++ ['}']

def printArr : List Value → List Char
  | [] => []
  | [v] => printValue v
  | v :: rest => printValue v ++ ',' :: printArr rest

def printObj : List (String × Value) → List Char
  | [] => []
  | [(k, v)] => strChars k ++ ':' :: printValue v
  | (k, v) :: rest => strChars k ++ ':' :: printValue v ++ ',' :: printObj rest

end

/-- `serde_json::to_string(value).unwrap_or_default()`. -/
def toJsonString (v : Value) : String := .mk (printValue v)

/-! ### Decimal number parsing

Shared by the JSON parser (`serde_json::from_str`) and by
`convert.to_number`'s `str::parse::<f64>()`.  Values are exact
rationals; the model does not round to binary floating point, and the
`inf`/`NaN` literals accepted by Rust's `f64` parser are outside the
model (no claim touches them). -/

def isDigitCh (c : Char) : Bool := '0' ≤ c && c ≤ '9'

def digitVal (c : Char) : ℕ := c.toNat - 48

def digitsVal (ds : List Char) : ℕ :=
  ds.foldl (fun a c => 10 * a + digitVal c) 0

/-- The optional leading `-` of a number literal. -/
def signPart : List Char → Bool × List Char
  | c :: t => if c = '-' then (true, t) else (false, c :: t)
  | [] => (false, [])

/-- The optional `.digits` fraction of a number literal. -/
def fracPart : List Char → List Char × List Char
  | c :: t =>
    if c = '.' then
      let (fp, t') := t.span isDigitCh
      if fp.isEmpty then ([], c :: t) else (fp, t')
    else ([], c :: t)
  | [] => ([], [])

/-- The optional `e`/`E` exponent of a number literal. -/
def expPart : List Char → ℤ × List Char
  | e :: t =>
    if e = 'e' || e = 'E' then
      let (esign, t₁) : ℤ × List Char :=
        match t with
        | c :: u => if c = '-' then (-1, u) else if c = '+' then (1, u) else (1, t)
        | [] => (1, t)
      let (ed, t₂) := t₁.span isDigitCh
      if ed.isEmpty then ((0 : ℤ), e :: t) else (esign * digitsVal ed, t₂)
    else ((0 : ℤ), e :: t)
  | [] => ((0 : ℤ), [])

/-- Parse a JSON number (optional `-`, digits, optional fraction,
optional exponent) off the front of the input; returns the value and the
unconsumed rest. -/
def parseNumTok (s : List Char) : Option (ℚ × List Char) :=
  let (neg, s₁) := signPart s
  let (ip, s₂) := s₁.span isDigitCh
  if ip.isEmpty then none else
  let (fp, s₃) := fracPart s₂
  let (ex, s₄) := expPart s₃
  let mag : ℚ := (digitsVal ip + (digitsVal fp : ℚ) / 10 ^ fp.length) * (10 : ℚ) ^ ex
  some ((if neg then -mag else mag), s₄)

/-- `str::parse::<f64>()` as used by `convert.to_number`: the whole
string must be one number literal (an optional leading `+` is allowed). -/
def parseFloat (s : String) : Option ℚ :=
  let t := match s.data with
    | '+' :: t => t
    | t => t
  match parseNumTok t with
  | some (q, []) => some q
  | _ => none

/-! ### The nodes

One definition per `impl NodeExecutor` under `src/workflow/plugins/rust`,
uniformly of type `Entries → Option Rt → Entries`; the output list is
built in the source's insertion order.  `math.power` takes the binary
`f64::powf` as a parameter (transcendental, no exact rational model);
`convert.to_json` takes `serde_json::to_string_pretty` as a parameter
(its whitespace layout is irrelevant to every claim). -/

def MathAdd.execute (inputs : Entries) (_rt : Option Rt) : Entries :=
  let numbers := (get_input asNumList inputs "numbers").getD []
  let sum : ℚ := numbers.foldl (· + ·) 0
  [("result", .num sum)]

def MathSubtract.execute (inputs : Entries) (_rt : Option Rt) : Entries :=
  let numbers := (get_input asNumList inputs "numbers").getD []
  match numbers with
  | [] => [("result", .num 0), ("error", .str "numbers must be non-empty")]
  | n :: rest => [("result", .num (rest.foldl (· - ·) n))]

def MathMultiply.execute (inputs : Entries) (_rt : Option Rt) : Entries :=
  let numbers := (get_input asNumList inputs "numbers").getD []
  match numbers with
  | [] => [("result", .num 0)]
  | _ => [("result", .num (numbers.foldl (· * ·) 1))]

def MathDivide.execute (inputs : Entries) (_rt : Option Rt) : Entries :=
  let numbers := (get_input asNumList inputs "numbers").getD []
  match numbers with
  | n₀ :: n₁ :: rest =>
    if (n₁ :: rest).any (· == 0) then
      [("result", .num 0), ("error", .str "division by zero")]
    else
      [("result", .num ((n₁ :: rest).foldl (· / ·) n₀))]
  | _ => [("result", .num 0), ("error", .str "need at least 2 numbers")]

def MathAbs.execute (inputs : Entries) (_rt : Option Rt) : Entries :=
  let value := (get_input asNum inputs "value").getD 0
  [("result", .num |value|)]

def MathCeil.execute (inputs : Entries) (_rt : Option Rt) : Entries :=
  let value := (get_input asNum inputs "value").getD 0
  [("result", .num ((value.ceil : ℤ) : ℚ))]

def MathFloor.execute (inputs : Entries) (_rt : Option Rt) : Entries :=
  let value := (get_input asNum inputs "value").getD 0
  [("result", .num ((value.floor : ℤ) : ℚ))]

/-- Truncation toward zero, the rounding of Rust's `%` on `f64`. -/
def ratTrunc (q : ℚ) : ℤ := if 0 ≤ q then q.floor else q.ceil

/-- Rust `f64` remainder: `a - (a/b).trunc() * b`. -/
def fRem (a b : ℚ) : ℚ := a - ((ratTrunc (a / b) : ℤ) : ℚ) * b

def MathModulo.execute (inputs : Entries) (_rt : Option Rt) : Entries :=
  let a := (get_input asNum inputs "a").getD 0
  let b := (get_input asNum inputs "b").getD 1
  if b == 0 then
    [("result", .num 0), ("error", .str "division by zero")]
  else
    [("result", .num (fRem a b))]

def MathPower.execute (powf : ℚ → ℚ → ℚ) (inputs : Entries) (_rt : Option Rt) : Entries :=
  let base := (get_input asNum inputs "base").getD 0
  let exp := (get_input asNum inputs "exponent").getD 1
  [("result", .num (powf base exp))]

def ListAt.execute (inputs : Entries) (_rt : Option Rt) : Entries :=
  let list := (get_input asList inputs "list").getD []
  let index := (get_input asInt inputs "index").getD 0
  let len : ℤ := list.length
  let idx : ℤ := if index < 0 then len + index else index
  let value := if 0 ≤ idx ∧ idx < len then list.getD idx.toNat .null else .null
  [("result", value)]

def ListConcat.execute (inputs : Entries) (_rt : Option Rt) : Entries :=
  let lists := (get_input asListList inputs "lists").getD []
  [("result", .arr lists.flatten)]

def ListFirst.execute (inputs : Entries) (_rt : Option Rt) : Entries :=
  let list := (get_input asList inputs "list").getD []
  [("result", list.headD .null)]

def ListLast.execute (inputs : Entries) (_rt : Option Rt) : Entries :=
  let list := (get_input asList inputs "list").getD []
  [("result", list.getLastD .null)]

def ListLength.execute (inputs : Entries) (_rt : Option Rt) : Entries :=
  let list := (get_input asList inputs "list").getD []
  [("result", .num (list.length : ℚ))]

def ListReverse.execute (inputs : Entries) (_rt : Option Rt) : Entries :=
  let list := (get_input asList inputs "list").getD []
  [("result", .arr list.reverse)]

def ListSlice.execute (inputs : Entries) (_rt : Option Rt) : Entries :=
  let list := (get_input asList inputs "list").getD []
  let start := (get_input asInt inputs "start").getD 0
  let endOpt := get_input asInt inputs "end"
  let len : ℤ := list.length
  let startIdx : ℤ := if start < 0 then max (len + start) 0 else min start len
  let endIdx : ℤ := match endOpt with
    | some e => if e < 0 then max (len + e) 0 else min e len
    | none => len
  let sliced := if startIdx < endIdx then
      (list.drop startIdx.toNat).take (endIdx - startIdx).toNat
    else []
  [("result", .arr sliced)]

/-- The comparator of `list.sort`'s `sort_by` closure.  The model's
numbers are exact rationals: a `serde_json::Number` cannot be NaN, so the
`partial_cmp(..).unwrap_or(Equal)` never takes its NaN fallback and the
comparison is the total order on values. -/
def cmpValue : Value → Value → Ordering
  | .num q₁, .num q₂ => if q₁ < q₂ then .lt else if q₂ < q₁ then .gt else .eq
  | .str s₁, .str s₂ => if strLt s₁ s₂ then .lt else if strLt s₂ s₁ then .gt else .eq
  | .bool b₁, .bool b₂ => if b₁ == b₂ then .eq else if b₁ then .gt else .lt
  | .null, .null => .eq
  | .null, _ => .lt
  | _, .null => .gt
  | _, _ => .eq

/-- Stable insertion used to model `Vec::sort_by` (a stable sort): `x`
goes after every already-placed element that is not greater than it. -/
def insertStable {α : Type} (le : α → α → Bool) (x : α) : List α → List α
  | [] => [x]
  | y :: ys => if le y x then y :: insertStable le x ys else x :: y :: ys

/-- Stable sort by a comparator, as `Vec::sort_by`. -/
def sortStable {α : Type} (le : α → α → Bool) (l : List α) : List α :=
  l.foldl (fun acc x => insertStable le x acc) []

def ListSort.execute (inputs : Entries) (_rt : Option Rt) : Entries :=
  let list := (get_input asList inputs "list").getD []
  [("result", .arr (sortStable (fun a b => cmpValue a b ≠ .gt) list))]

def StringConcat.execute (inputs : Entries) (_rt : Option Rt) : Entries :=
  let strings := (get_input asStrList inputs "strings").getD []
  let separator := (get_input asStr inputs "separator").getD ""
  [("result", .str (joinSep separator strings))]

def StringContains.execute (inputs : Entries) (_rt : Option Rt) : Entries :=
  let string := (get_input asStr inputs "string").getD ""
  let substring := (get_input asStr inputs "substring").getD ""
  [("result", .bool (containsSub string.data substring.data))]

def StringEndsWith.execute (inputs : Entries) (_rt : Option Rt) : Entries :=
  let string := (get_input asStr inputs "string").getD ""
  let suffix := (get_input asStr inputs "suffix").getD ""
  [("result", .bool (suffix.data.isSuffixOf string.data))]

def StringLength.execute (inputs : Entries) (_rt : Option Rt) : Entries :=
  let string := (get_input asStr inputs "string").getD ""
  [("result", .num (string.utf8ByteSize : ℚ))]

def StringLower.execute (inputs : Entries) (_rt : Option Rt) : Entries :=
  let string := (get_input asStr inputs "string").getD ""
  [("result", .str (strLower string))]

def StringSplit.execute (inputs : Entries) (_rt : Option Rt) : Entries :=
  let string := (get_input asStr inputs "string").getD ""
  let separator := (get_input asStr inputs "separator").getD ""
  let parts : List String := match separator.data with
    | [] => string.data.map (fun c => String.mk [c])
    | c₀ :: sepRest => (splitOnSep c₀ sepRest string.data).map String.mk
  [("result", .arr (parts.map .str))]

def StringStartsWith.execute (inputs : Entries) (_rt : Option Rt) : Entries :=
  let string := (get_input asStr inputs "string").getD ""
  let pre := (get_input asStr inputs "prefix").getD ""
  [("result", .bool (pre.data.isPrefixOf string.data))]

def StringSubstring.execute (inputs : Entries) (_rt : Option Rt) : Entries :=
  let string := (get_input asStr inputs "string").getD ""
  let start := (get_input asInt inputs "start").getD 0
  let endOpt := get_input asInt inputs "end"
  let chars := string.data
  let len : ℤ := chars.length
  let startIdx : ℤ := if start < 0 then max (len + start) 0 else min start len
  let endIdx : ℤ := match endOpt with
    | some e => if e < 0 then max (len + e) 0 else min e len
    | none => len
  let substring := if startIdx < endIdx then
      String.mk ((chars.drop startIdx.toNat).take (endIdx - startIdx).toNat)
    else ""
  [("result", .str substring)]

def StringTrim.execute (inputs : Entries) (_rt : Option Rt) : Entries :=
  let string := (get_input asStr inputs "string").getD ""
  [("result", .str (strTrim string))]

def StringUpper.execute (inputs : Entries) (_rt : Option Rt) : Entries :=
  let string := (get_input asStr inputs "string").getD ""
  [("result", .str (strUpper string))]

/-- Modelled from the spec: the body of `StringReplace` (node
`string.replace`) is not under `src/` — only its factory
(`string_replace/src/factory.rs`) is.  Per the node contract (spec §4.3)
it consumes its string inputs with the coercion defaults and returns a
non-empty output with primary key `result`; the replacement itself is
modelled as replace-all via split and join. -/
def StringReplace.execute (inputs : Entries) (_rt : Option Rt) : Entries :=
  let string := (get_input asStr inputs "string").getD ""
  let old := (get_input asStr inputs "old").getD ""
  let new := (get_input asStr inputs "new").getD ""
  let replaced := match old.data with
    | [] => string
    | c₀ :: sepRest => joinSep new ((splitOnSep c₀ sepRest string.data).map String.mk)
  [("result", .str replaced)]

/-- The strict string-truthiness match inlined in
`ConvertToBoolean::execute`. -/
def strictToBool : Value → Bool
  | .bool b => b
  | .num n => n != 0
  | .str s => strLower s == "true" || strLower s == "1" || strLower s == "yes"
  | .null => false
  | .arr a => !a.isEmpty
  | .obj o => !o.isEmpty

def ConvertToBoolean.execute (inputs : Entries) (_rt : Option Rt) : Entries :=
  let value := (getRaw inputs "value").getD .null
  [("result", .bool (strictToBool value))]

def ConvertToNumber.execute (inputs : Entries) (_rt : Option Rt) : Entries :=
  let value := (getRaw inputs "value").getD .null
  let result : ℚ := match value with
    | .num n => n
    | .str s => (parseFloat s).getD 0
    | .bool b => if b then 1 else 0
    | _ => 0
  [("result", .num result)]

def ConvertToString.execute (inputs : Entries) (_rt : Option Rt) : Entries :=
  let value := (getRaw inputs "value").getD .null
  let result : String := match value with
    | .str s => s
    | .null => ""
    | v => toJsonString v
  [("result", .str result)]

def ConvertToList.execute (inputs : Entries) (_rt : Option Rt) : Entries :=
  let value := (getRaw inputs "value").getD .null
  let result : List Value := match value with
    | .arr a => a
    | .str s => s.data.map (fun c => .str (String.mk [c]))
    | .null => []
    | v => [v]
  [("result", .arr result)]

/-- `serde_json::Map::insert` (a `BTreeMap` with the default feature
set): sorted insertion, replacing an existing binding of the key. -/
def mapInsert (k : String) (v : Value) : List (String × Value) → List (String × Value)
  | [] => [(k, v)]
  | (k', v') :: rest =>
    if strLt k k' then (k, v) :: (k', v') :: rest
    else if k = k' then (k, v) :: rest
    else (k', v') :: mapInsert k v rest

def ConvertToObject.execute (inputs : Entries) (_rt : Option Rt) : Entries :=
  let value := (getRaw inputs "value").getD .null
  let result : Value := match value with
    | .obj o => .obj o
    | .arr a => .obj (a.foldl (fun obj item =>
        match item with
        | .arr (Value.str key :: v :: _) => mapInsert key v obj
        | _ => obj) [])
    | _ => .obj []
  [("result", result)]

def ConvertToJson.execute (toPretty : Value → String) (inputs : Entries)
    (_rt : Option Rt) : Entries :=
  let value := (getRaw inputs "value").getD .null
  let pretty := (get_input asBool inputs "pretty").getD false
  let result := if pretty then toPretty value else toJsonString value
  [("result", .str result)]

def LogicEquals.execute (inputs : Entries) (_rt : Option Rt) : Entries :=
  let a := (getRaw inputs "a").getD .null
  let b := (getRaw inputs "b").getD .null
  [("result", .bool (Value.beq a b))]

def LogicGt.execute (inputs : Entries) (_rt : Option Rt) : Entries :=
  let a := (get_input asNum inputs "a").getD 0
  let b := (get_input asNum inputs "b").getD 0
  [("result", .bool (decide (b < a)))]

def LogicLt.execute (inputs : Entries) (_rt : Option Rt) : Entries :=
  let a := (get_input asNum inputs "a").getD 0
  let b := (get_input asNum inputs "b").getD 0
  [("result", .bool (decide (a < b)))]

def LogicLte.execute (inputs : Entries) (_rt : Option Rt) : Entries :=
  let a := (get_input asNum inputs "a").getD 0
  let b := (get_input asNum inputs "b").getD 0
  [("result", .bool (decide (a ≤ b)))]

/-- The loose truthiness helper `to_bool` shared by `logic.not`,
`logic.or` and `logic.xor`. -/
def to_bool : Value → Bool
  | .bool b => b
  | .num n => n != 0
  | .str s => !s.isEmpty
  | .null => false
  | .arr a => !a.isEmpty
  | .obj o => !o.isEmpty

def LogicNot.execute (inputs : Entries) (_rt : Option Rt) : Entries :=
  let value := (getRaw inputs "value").getD .null
  [("result", .bool (!to_bool value))]

def LogicOr.execute (inputs : Entries) (_rt : Option Rt) : Entries :=
  let values := (get_input asList inputs "values").getD []
  [("result", .bool (values.any to_bool))]

def LogicXor.execute (inputs : Entries) (_rt : Option Rt) : Entries :=
  let values := (get_input asList inputs "values").getD []
  [("result", .bool ((values.filter to_bool).length == 1))]

/-- `logic.in` uses the legacy `Plugin::run` interface; it always
returns `Ok` of this mapping, so it is modelled as returning the mapping
directly (the legacy mutable runtime is unused). -/
def LogicIn.run (inputs : Entries) (_rt : Option Rt) : Entries :=
  let value := (getRaw inputs "value").getD .null
  let list := (get_input asList inputs "list").getD []
  [("result", .bool (list.any (Value.beq · value)))]

def VarGet.execute (inputs : Entries) (rt : Option Rt) : Entries :=
  let key := get_input asStr inputs "key"
  match key with
  | some k =>
    let dflt := (getRaw inputs "default").getD .null
    let (value, exists?) := match downcastStore rt with
      | some s => (((s.lookup k).getD dflt), storeContains s k)
      | none => (dflt, false)
    [("result", value), ("exists", .bool exists?)]
  | none =>
    [("result", .null), ("exists", .bool false), ("error", .str "key is required")]

def VarSet.execute (inputs : Entries) (_rt : Option Rt) : Entries :=
  let key := get_input asStr inputs "key"
  match key with
  | some k =>
    let value := (getRaw inputs "value").getD .null
    [("success", .bool true), ("key", .str k), ("value", value)]
  | none =>
    [("success", .bool false), ("error", .str "key is required")]

def VarDelete.execute (inputs : Entries) (rt : Option Rt) : Entries :=
  let key := get_input asStr inputs "key"
  match key with
  | some k =>
    let existed := match downcastStore rt with
      | some s => storeContains s k
      | none => false
    [("success", .bool true), ("key", .str k), ("existed", .bool existed)]
  | none =>
    [("success", .bool false), ("error", .str "key is required")]

def VarExists.execute (inputs : Entries) (rt : Option Rt) : Entries :=
  let key := get_input asStr inputs "key"
  match key with
  | some k =>
    let exists? := match downcastStore rt with
      | some s => storeContains s k
      | none => false
    [("result", .bool exists?)]
  | none =>
    [("result", .bool false), ("error", .str "key is required")]

def VarKeys.execute (_inputs : Entries) (rt : Option Rt) : Entries :=
  let keys := match downcastStore rt with
    | some s => s.map Prod.fst
    | none => []
  [("result", .arr (keys.map .str))]

def VarClear.execute (_inputs : Entries) (rt : Option Rt) : Entries :=
  let count := match downcastStore rt with
    | some s => s.length
    | none => 0
  [("success", .bool true), ("cleared", .num (count : ℚ))]

/-! ### JSON parsing (`serde_json::from_str::<Value>`)

A recursive-descent parser over the character list, with a fuel bound on
nesting (any fuel at least the input length is enough; `fromJsonStr`
passes `length + 1`).  Escapes inside strings follow the JSON grammar;
surrogate-pair `\uXXXX` escapes are outside the model (the serializer
never emits them, and no claim touches them).  Object entries are
inserted into the `BTreeMap` in textual order, so a later duplicate key
overwrites an earlier one, as in serde. -/

def skipWs (s : List Char) : List Char :=
  s.dropWhile isWsChar

def hexVal (c : Char) : Option ℕ :=
  if '0' ≤ c && c ≤ '9' then some (c.toNat - 48)
  else if 'a' ≤ c && c ≤ 'f' then some (c.toNat - 87)
  else if 'A' ≤ c && c ≤ 'F' then some (c.toNat - 55)
  else none

/-- The body of a JSON string literal, from just after the opening quote
to just after the closing quote. -/
def parseStrBody : List Char → Option (List Char × List Char)
  | [] => none
  | c :: rest =>
    if c = '"' then some ([], rest)
    else if c = '\\' then
      match rest with
      | [] => none
      | e :: rest₂ =>
        if e = 'u' then
          match rest₂ with
          | h₁ :: h₂ :: h₃ :: h₄ :: rest₃ =>
            match hexVal h₁, hexVal h₂, hexVal h₃, hexVal h₄ with
            | some a, some b, some c', some d =>
              let n := ((a * 16 + b) * 16 + c') * 16 + d
              if n < 0xD800 then
                (parseStrBody rest₃).map fun (cs, r) => (Char.ofNat n :: cs, r)
              else none
            | _, _, _, _ => none
          | _ => none
        else
          let dec : Option Char :=
            if e = '"' then some '"'
            else if e = '\\' then some '\\'
            else if e = '/' then some '/'
            else if e = 'b' then some '\x08'
            else if e = 'f' then some '\x0c'
            else if e = 'n' then some '\n'
            else if e = 'r' then some '\r'
            else if e = 't' then some '\t'
            else none
          match dec with
          | some c' => (parseStrBody rest₂).map fun (cs, r) => (c' :: cs, r)
          | none => none
    else if c.toNat < 0x20 then none
    else (parseStrBody rest).map fun (cs, r) => (c :: cs, r)

mutual

def parseValue : ℕ → List Char → Option (Value × List Char)
  | 0, _ => none
  | fuel + 1, s =>
    match skipWs s with
    | [] => none
    | c :: rest =>
      if c = 'n' then
        match rest with
        | 'u' :: 'l' :: 'l' :: r => some (.null, r)
        | _ => none
      else if c = 't' then
        match rest with
        | 'r' :: 'u' :: 'e' :: r => some (.bool true, r)
        | _ => none
      else if c = 'f' then
        match rest with
        | 'a' :: 'l' :: 's' :: 'e' :: r => some (.bool false, r)
        | _ => none
      else if c = '"' then
        (parseStrBody rest).map fun (cs, r) => (.str (String.mk cs), r)
      else if c = '[' then
        match skipWs rest with
        | c' :: r' =>
          if c' = ']' then some (.arr [], r')
          else (parseElems fuel (c' :: r')).map fun (l, rr) => (.arr l, rr)
        | [] => (parseElems fuel []).map fun (l, rr) => (.arr l, rr)
      else if c = '{' then
        match skipWs rest with
        | c' :: r' =>
          if c' = '}' then some (.obj [], r')
          else
            (parseEntries fuel (c' :: r')).map fun (m, rr) =>
              (.obj (m.foldl (fun acc kv => mapInsert kv.1 kv.2 acc) []), rr)
        | [] =>
          (parseEntries fuel []).map fun (m, rr) =>
            (.obj (m.foldl (fun acc kv => mapInsert kv.1 kv.2 acc) []), rr)
      else
        (parseNumTok (c :: rest)).map fun (q, r) => (.num q, r)

def parseElems : ℕ → List Char → Option (List Value × List Char)
  | 0, _ => none
  | fuel + 1, s =>
    (parseValue fuel s).bind fun (v, r) =>
      match skipWs r with
      | c :: r₂ =>
        if c = ',' then (parseElems fuel r₂).map fun (l, rr) => (v :: l, rr)
        else if c = ']' then some ([v], r₂)
        else none
      | [] => none

def parseEntries : ℕ → List Char → Option (List (String × Value) × List Char)
  | 0, _ => none
  | fuel + 1, s =>
    match skipWs s with
    | c :: r =>
      if c = '"' then
        (parseStrBody r).bind fun (kcs, r₁) =>
          match skipWs r₁ with
          | c₁ :: r₂ =>
            if c₁ = ':' then
              (parseValue fuel r₂).bind fun (v, r₃) =>
                match skipWs r₃ with
                | c₂ :: r₄ =>
                  if c₂ = ',' then
                    (parseEntries fuel r₄).map fun (m, rr) =>
                      ((String.mk kcs, v) :: m, rr)
                  else if c₂ = '}' then some ([(String.mk kcs, v)], r₄)
                  else none
                | [] => none
            else none
          | [] => none
      else none
    | [] => none

end

/-- `serde_json::from_str::<Value>(s)`: one value, then only trailing
whitespace. -/
def fromJsonStr (s : String) : Option Value :=
  (parseValue (s.data.length + 1) s.data).bind fun (v, rest) =>
    if (skipWs rest).isEmpty then some v else none

/-- `convert.parse_json`.  serde's error is a dynamic message; the model
uses a fixed placeholder text (no claim inspects the message). -/
def ConvertParseJson.execute (inputs : Entries) (_rt : Option Rt) : Entries :=
  let string := (get_input asStr inputs "string").getD ""
  match fromJsonStr string with
  | some v => [("result", v)]
  | none => [("result", .null), ("error", .str "JSON parse error")]

/-! ### The node catalog

Every execution entry point in `src/workflow/plugins/rust`, as one list;
`math.power`'s `powf` and `convert.to_json`'s pretty serializer are
parameters (see above). -/

def allNodes (powf : ℚ → ℚ → ℚ) (toPretty : Value → String) :
    List (Entries → Option Rt → Entries) :=
  [MathAdd.execute, MathSubtract.execute, MathMultiply.execute, MathDivide.execute,
   MathAbs.execute, MathCeil.execute, MathFloor.execute, MathModulo.execute,
   MathPower.execute powf,
   ListAt.execute, ListConcat.execute, ListFirst.execute, ListLast.execute,
   ListLength.execute, ListReverse.execute, ListSlice.execute, ListSort.execute,
   StringConcat.execute, StringContains.execute, StringEndsWith.execute,
   StringLength.execute, StringLower.execute, StringSplit.execute,
   StringStartsWith.execute, StringSubstring.execute, StringTrim.execute,
   StringUpper.execute, StringReplace.execute,
   ConvertToBoolean.execute, ConvertToNumber.execute, ConvertToString.execute,
   ConvertToList.execute, ConvertToObject.execute, ConvertToJson.execute toPretty,
   ConvertParseJson.execute,
   LogicEquals.execute, LogicGt.execute, LogicLt.execute, LogicLte.execute,
   LogicNot.execute, LogicOr.execute, LogicXor.execute, LogicIn.run,
   VarGet.execute, VarSet.execute, VarDelete.execute, VarExists.execute,
   VarKeys.execute, VarClear.execute]

/-- Constructor tag, used to state which pairs of variants the sort
comparator treats as equal. -/
def vtag : Value → ℕ
  | .null => 0
  | .bool _ => 1
  | .num _ => 2
  | .str _ => 3
  | .arr _ => 4
  | .obj _ => 5


/-- The per-element folding step of `convert.to_object`'s List case. -/
def toObjectStep (obj : List (String × Value)) (item : Value) : List (String × Value) :=
  match item with
  | .arr (Value.str key :: v :: _) => mapInsert key v obj
  | _ => obj


/-! ### JSON round trip: well-formed values

`numOk q` holds exactly when `q` has a finite decimal representation —
true of every number a `serde_json::Value` can hold, since a finite
`f64` is `m / 2^e` and `2^e ∣ 10^e` (and NaN/infinities are not
representable at all).  `keysSorted` is the `BTreeMap` key invariant of
`serde_json::Map`.  `wfValue` conjoins the two over a value; it is the
model's rendering of "contains no NaN or Infinity components". -/

def numOk (q : ℚ) : Bool :=
  (List.range (q.den + 1)).any fun k => 10 ^ k % q.den == 0

def keysSorted : List (String × Value) → Bool
  | [] => true
  | [_] => true
  | (k₁, _) :: (k₂, v₂) :: rest => strLt k₁ k₂ && keysSorted ((k₂, v₂) :: rest)

mutual

def wfValue : Value → Bool
  | .null => true
  | .bool _ => true
  | .num q => numOk q
  | .str _ => true
  | .arr l => wfList l
  | .obj m => wfVals m && keysSorted m

def wfList : List Value → Bool
  | [] => true
  | v :: rest => wfValue v && wfList rest

def wfVals : List (String × Value) → Bool
  | [] => true
  | (_, v) :: rest => wfValue v && wfVals rest

end


/-- What may legally follow a printed number so that the number parser
stops exactly at the boundary: end of input, or a character that is not
a digit, point, or exponent marker.  The JSON delimiters `,`, `]`, `}`
all qualify. -/
def NumDelim (rest : List Char) : Prop :=
  ∀ c, rest.head? = some c →
    isDigitCh c = false ∧ c ≠ '.' ∧ c ≠ 'e' ∧ c ≠ 'E'


/-- What may follow a printed value inside a JSON document: end of
input, or one of the structural delimiters. -/
def DelimOk (rest : List Char) : Prop :=
  ∀ c, rest.head? = some c → c = ',' ∨ c = ']' ∨ c = '}'


/-! ### Fuel bounds for the parser -/

mutual

def countV : Value → ℕ
  | .arr l => countL l + 1
  | .obj m => countM m + 1
  | _ => 1

def countL : List Value → ℕ
  | [] => 1
  | v :: rest => countV v + countL rest

def countM : List (String × Value) → ℕ
  | [] => 1
  | (_, v) :: rest => countV v + countM rest

end


/-! ## Verification -/

/-! ### Non-emptiness of every node's output -/

theorem mathAdd_ne_nil (i : Entries) (rt : Option Rt) : MathAdd.execute i rt ≠ [] := by
  simp [MathAdd.execute]

theorem mathSubtract_ne_nil (i : Entries) (rt : Option Rt) :
    MathSubtract.execute i rt ≠ [] := by
  simp only [MathSubtract.execute]; split <;> simp

theorem mathMultiply_ne_nil (i : Entries) (rt : Option Rt) :
    MathMultiply.execute i rt ≠ [] := by
  simp only [MathMultiply.execute]; split <;> simp

theorem mathDivide_ne_nil (i : Entries) (rt : Option Rt) : MathDivide.execute i rt ≠ [] := by
  simp only [MathDivide.execute]; split <;> (try split) <;> simp

theorem mathAbs_ne_nil (i : Entries) (rt : Option Rt) : MathAbs.execute i rt ≠ [] := by
  simp [MathAbs.execute]

theorem mathCeil_ne_nil (i : Entries) (rt : Option Rt) : MathCeil.execute i rt ≠ [] := by
  simp [MathCeil.execute]

theorem mathFloor_ne_nil (i : Entries) (rt : Option Rt) : MathFloor.execute i rt ≠ [] := by
  simp [MathFloor.execute]

theorem mathModulo_ne_nil (i : Entries) (rt : Option Rt) : MathModulo.execute i rt ≠ [] := by
  simp only [MathModulo.execute]; split <;> simp

theorem mathPower_ne_nil (powf : ℚ → ℚ → ℚ) (i : Entries) (rt : Option Rt) :
    MathPower.execute powf i rt ≠ [] := by
  simp [MathPower.execute]

theorem listAt_ne_nil (i : Entries) (rt : Option Rt) : ListAt.execute i rt ≠ [] := by
  simp [ListAt.execute]

theorem listConcat_ne_nil (i : Entries) (rt : Option Rt) : ListConcat.execute i rt ≠ [] := by
  simp [ListConcat.execute]

theorem listFirst_ne_nil (i : Entries) (rt : Option Rt) : ListFirst.execute i rt ≠ [] := by
  simp [ListFirst.execute]

theorem listLast_ne_nil (i : Entries) (rt : Option Rt) : ListLast.execute i rt ≠ [] := by
  simp [ListLast.execute]

theorem listLength_ne_nil (i : Entries) (rt : Option Rt) : ListLength.execute i rt ≠ [] := by
  simp [ListLength.execute]

theorem listReverse_ne_nil (i : Entries) (rt : Option Rt) : ListReverse.execute i rt ≠ [] := by
  simp [ListReverse.execute]

theorem listSlice_ne_nil (i : Entries) (rt : Option Rt) : ListSlice.execute i rt ≠ [] := by
  simp [ListSlice.execute]

theorem listSort_ne_nil (i : Entries) (rt : Option Rt) : ListSort.execute i rt ≠ [] := by
  simp [ListSort.execute]

theorem stringConcat_ne_nil (i : Entries) (rt : Option Rt) :
    StringConcat.execute i rt ≠ [] := by
  simp [StringConcat.execute]

theorem stringContains_ne_nil (i : Entries) (rt : Option Rt) :
    StringContains.execute i rt ≠ [] := by
  simp [StringContains.execute]

theorem stringEndsWith_ne_nil (i : Entries) (rt : Option Rt) :
    StringEndsWith.execute i rt ≠ [] := by
  simp [StringEndsWith.execute]

theorem stringLength_ne_nil (i : Entries) (rt : Option Rt) :
    StringLength.execute i rt ≠ [] := by
  simp [StringLength.execute]

theorem stringLower_ne_nil (i : Entries) (rt : Option Rt) :
    StringLower.execute i rt ≠ [] := by
  simp [StringLower.execute]

theorem stringSplit_ne_nil (i : Entries) (rt : Option Rt) :
    StringSplit.execute i rt ≠ [] := by
  simp [StringSplit.execute]

theorem stringStartsWith_ne_nil (i : Entries) (rt : Option Rt) :
    StringStartsWith.execute i rt ≠ [] := by
  simp [StringStartsWith.execute]

theorem stringSubstring_ne_nil (i : Entries) (rt : Option Rt) :
    StringSubstring.execute i rt ≠ [] := by
  simp [StringSubstring.execute]

theorem stringTrim_ne_nil (i : Entries) (rt : Option Rt) : StringTrim.execute i rt ≠ [] := by
  simp [StringTrim.execute]

theorem stringUpper_ne_nil (i : Entries) (rt : Option Rt) :
    StringUpper.execute i rt ≠ [] := by
  simp [StringUpper.execute]

theorem stringReplace_ne_nil (i : Entries) (rt : Option Rt) :
    StringReplace.execute i rt ≠ [] := by
  simp [StringReplace.execute]

theorem convertToBoolean_ne_nil (i : Entries) (rt : Option Rt) :
    ConvertToBoolean.execute i rt ≠ [] := by
  simp [ConvertToBoolean.execute]

theorem convertToNumber_ne_nil (i : Entries) (rt : Option Rt) :
    ConvertToNumber.execute i rt ≠ [] := by
  simp [ConvertToNumber.execute]

theorem convertToString_ne_nil (i : Entries) (rt : Option Rt) :
    ConvertToString.execute i rt ≠ [] := by
  simp [ConvertToString.execute]

theorem convertToList_ne_nil (i : Entries) (rt : Option Rt) :
    ConvertToList.execute i rt ≠ [] := by
  simp [ConvertToList.execute]

theorem convertToObject_ne_nil (i : Entries) (rt : Option Rt) :
    ConvertToObject.execute i rt ≠ [] := by
  simp [ConvertToObject.execute]

theorem convertToJson_ne_nil (toPretty : Value → String) (i : Entries) (rt : Option Rt) :
    ConvertToJson.execute toPretty i rt ≠ [] := by
  simp [ConvertToJson.execute]

theorem convertParseJson_ne_nil (i : Entries) (rt : Option Rt) :
    ConvertParseJson.execute i rt ≠ [] := by
  simp only [ConvertParseJson.execute]; split <;> simp

theorem logicEquals_ne_nil (i : Entries) (rt : Option Rt) :
    LogicEquals.execute i rt ≠ [] := by
  simp [LogicEquals.execute]

theorem logicGt_ne_nil (i : Entries) (rt : Option Rt) : LogicGt.execute i rt ≠ [] := by
  simp [LogicGt.execute]

theorem logicLt_ne_nil (i : Entries) (rt : Option Rt) : LogicLt.execute i rt ≠ [] := by
  simp [LogicLt.execute]

theorem logicLte_ne_nil (i : Entries) (rt : Option Rt) : LogicLte.execute i rt ≠ [] := by
  simp [LogicLte.execute]

theorem logicNot_ne_nil (i : Entries) (rt : Option Rt) : LogicNot.execute i rt ≠ [] := by
  simp [LogicNot.execute]

theorem logicOr_ne_nil (i : Entries) (rt : Option Rt) : LogicOr.execute i rt ≠ [] := by
  simp [LogicOr.execute]

theorem logicXor_ne_nil (i : Entries) (rt : Option Rt) : LogicXor.execute i rt ≠ [] := by
  simp [LogicXor.execute]

theorem logicIn_ne_nil (i : Entries) (rt : Option Rt) : LogicIn.run i rt ≠ [] := by
  simp [LogicIn.run]

theorem varGet_ne_nil (i : Entries) (rt : Option Rt) : VarGet.execute i rt ≠ [] := by
  simp only [VarGet.execute]; split <;> (try split) <;> simp

theorem varSet_ne_nil (i : Entries) (rt : Option Rt) : VarSet.execute i rt ≠ [] := by
  simp only [VarSet.execute]; split <;> simp

theorem varDelete_ne_nil (i : Entries) (rt : Option Rt) : VarDelete.execute i rt ≠ [] := by
  simp only [VarDelete.execute]; split <;> (try split) <;> simp

theorem varExists_ne_nil (i : Entries) (rt : Option Rt) : VarExists.execute i rt ≠ [] := by
  simp only [VarExists.execute]; split <;> (try split) <;> simp

theorem varKeys_ne_nil (i : Entries) (rt : Option Rt) : VarKeys.execute i rt ≠ [] := by
  simp [VarKeys.execute]

theorem varClear_ne_nil (i : Entries) (rt : Option Rt) : VarClear.execute i rt ≠ [] := by
  simp [VarClear.execute]

/-- C1: for every node in the catalog, for every inputs mapping
(including the empty one) and every optional runtime/store argument
(each quantified, with `math.power`'s `powf` and `convert.to_json`'s
pretty serializer as uninterpreted parameters), the returned output
mapping is non-empty. -/
theorem node_outputs_nonempty (powf : ℚ → ℚ → ℚ) (toPretty : Value → String)
    {f : Entries → Option Rt → Entries} (hf : f ∈ allNodes powf toPretty)
    (inputs : Entries) (rt : Option Rt) : f inputs rt ≠ [] := by
  unfold allNodes at hf
  simp only [List.mem_cons, List.not_mem_nil, or_false] at hf
  rcases hf with rfl | rfl | rfl | rfl | rfl | rfl | rfl | rfl | rfl | rfl | rfl | rfl |
    rfl | rfl | rfl | rfl | rfl | rfl | rfl | rfl | rfl | rfl | rfl | rfl | rfl | rfl |
    rfl | rfl | rfl | rfl | rfl | rfl | rfl | rfl | rfl | rfl | rfl | rfl | rfl | rfl |
    rfl | rfl | rfl | rfl | rfl | rfl | rfl | rfl | rfl
  · exact mathAdd_ne_nil inputs rt
  · exact mathSubtract_ne_nil inputs rt
  · exact mathMultiply_ne_nil inputs rt
  · exact mathDivide_ne_nil inputs rt
  · exact mathAbs_ne_nil inputs rt
  · exact mathCeil_ne_nil inputs rt
  · exact mathFloor_ne_nil inputs rt
  · exact mathModulo_ne_nil inputs rt
  · exact mathPower_ne_nil powf inputs rt
  · exact listAt_ne_nil inputs rt
  · exact listConcat_ne_nil inputs rt
  · exact listFirst_ne_nil inputs rt
  · exact listLast_ne_nil inputs rt
  · exact listLength_ne_nil inputs rt
  · exact listReverse_ne_nil inputs rt
  · exact listSlice_ne_nil inputs rt
  · exact listSort_ne_nil inputs rt
  · exact stringConcat_ne_nil inputs rt
  · exact stringContains_ne_nil inputs rt
  · exact stringEndsWith_ne_nil inputs rt
  · exact stringLength_ne_nil inputs rt
  · exact stringLower_ne_nil inputs rt
  · exact stringSplit_ne_nil inputs rt
  · exact stringStartsWith_ne_nil inputs rt
  · exact stringSubstring_ne_nil inputs rt
  · exact stringTrim_ne_nil inputs rt
  · exact stringUpper_ne_nil inputs rt
  · exact stringReplace_ne_nil inputs rt
  · exact convertToBoolean_ne_nil inputs rt
  · exact convertToNumber_ne_nil inputs rt
  · exact convertToString_ne_nil inputs rt
  · exact convertToList_ne_nil inputs rt
  · exact convertToObject_ne_nil inputs rt
  · exact convertToJson_ne_nil toPretty inputs rt
  · exact convertParseJson_ne_nil inputs rt
  · exact logicEquals_ne_nil inputs rt
  · exact logicGt_ne_nil inputs rt
  · exact logicLt_ne_nil inputs rt
  · exact logicLte_ne_nil inputs rt
  · exact logicNot_ne_nil inputs rt
  · exact logicOr_ne_nil inputs rt
  · exact logicXor_ne_nil inputs rt
  · exact logicIn_ne_nil inputs rt
  · exact varGet_ne_nil inputs rt
  · exact varSet_ne_nil inputs rt
  · exact varDelete_ne_nil inputs rt
  · exact varExists_ne_nil inputs rt
  · exact varKeys_ne_nil inputs rt
  · exact varClear_ne_nil inputs rt

/-- C1 witness: the membership hypothesis holds for a concrete node
(`math.add`) and the claim applies to it on the empty input mapping with
no runtime. -/
theorem node_outputs_nonempty_witness :
    MathAdd.execute [] none ≠ [] :=
  node_outputs_nonempty (fun a _ => a) (fun _ => "")
    (by unfold allNodes; exact List.mem_cons_self _ _) [] none

/-! ### Failure output shapes -/

/-- C2 counterexample: the claim says the set of output keys never
depends on success/failure and names `var.set` without a `"key"` input
as an instance; but on that very input `var.set` emits only
`success`/`error`, whereas on success it emits `success`/`key`/`value` —
the success-path keys `key` and `value` are absent from the failure
output. -/
theorem varSet_failure_shape_differs :
    (VarSet.execute [("value", .str "bar")] none).map Prod.fst = ["success", "error"] ∧
    (VarSet.execute [("key", .str "foo"), ("value", .str "bar")] none).map Prod.fst
      = ["success", "key", "value"] := by
  constructor <;> rfl

/-- C2 (amended): on every recoverable failure the primary key holds a
neutral sentinel (0, null or false) and an `error` key holds a message;
for `math.divide` and `var.get` the failure key set is the success key
set plus `error`, but `var.set` invoked without a `"key"` input emits
only `success = false` and `error` — its success-path keys `key` and
`value` are omitted on failure. -/
theorem failure_outputs_sentinel_and_error (i : Entries) (rt : Option Rt) :
    ((MathDivide.execute i rt).map Prod.fst = ["result"] ∨
      MathDivide.execute i rt = [("result", .num 0), ("error", .str "need at least 2 numbers")] ∨
      MathDivide.execute i rt = [("result", .num 0), ("error", .str "division by zero")]) ∧
    ((VarGet.execute i rt).map Prod.fst = ["result", "exists"] ∨
      VarGet.execute i rt
        = [("result", .null), ("exists", .bool false), ("error", .str "key is required")]) ∧
    ((VarSet.execute i rt).map Prod.fst = ["success", "key", "value"] ∨
      VarSet.execute i rt = [("success", .bool false), ("error", .str "key is required")]) := by
  refine ⟨?_, ?_, ?_⟩
  · simp only [MathDivide.execute]
    split
    · split
      · exact Or.inr (Or.inr rfl)
      · exact Or.inl rfl
    · exact Or.inr (Or.inl rfl)
  · simp only [VarGet.execute]
    split
    · split <;> exact Or.inl rfl
    · exact Or.inr rfl
  · simp only [VarSet.execute]
    split
    · exact Or.inl rfl
    · exact Or.inr rfl

/-- C2 witness (for the amended claim): evaluated at the counterexample
input, `var.set` without `"key"` takes the failure branch with the
neutral sentinel `success = false` and the `error` message. -/
theorem failure_outputs_sentinel_and_error_witness :
    VarSet.execute [("value", .str "bar")] none
      = [("success", .bool false), ("error", .str "key is required")] := by
  rcases (failure_outputs_sentinel_and_error [("value", .str "bar")] none).2.2 with h | h
  · exact absurd h (by decide)
  · exact h

/-! ### Index normalization and bound clamping -/

/-- C3: `list.at` resolves a signed index `i` over a list of length `L`
to the effective index `L + i` when `i < 0` and `i` otherwise, returning
null when the effective index is out of range — in particular always
null on an empty list; `list.slice` and `string.substring` clamp each
bound independently into `[0, L]`, and whenever the clamped start is not
strictly less than the clamped end the result is the empty sequence —
never an error (the output never carries an `error` key). -/
theorem index_normalization_and_clamping :
    (∀ (inputs : Entries) (rt : Option Rt) (l : List Value) (i : ℤ),
      get_input asList inputs "list" = some l →
      get_input asInt inputs "index" = some i →
      ListAt.execute inputs rt =
        [("result",
          let idx : ℤ := if i < 0 then (l.length : ℤ) + i else i
          if 0 ≤ idx ∧ idx < (l.length : ℤ) then l.getD idx.toNat .null else .null)]) ∧
    (∀ (inputs : Entries) (rt : Option Rt) (i : ℤ),
      get_input asList inputs "list" = some [] →
      get_input asInt inputs "index" = some i →
      ListAt.execute inputs rt = [("result", .null)]) ∧
    (∀ (inputs : Entries) (rt : Option Rt) (l : List Value) (s e : ℤ),
      get_input asList inputs "list" = some l →
      get_input asInt inputs "start" = some s →
      get_input asInt inputs "end" = some e →
      let L : ℤ := l.length
      let s' : ℤ := if s < 0 then max (L + s) 0 else min s L
      let e' : ℤ := if e < 0 then max (L + e) 0 else min e L
      (0 ≤ s' ∧ s' ≤ L ∧ 0 ≤ e' ∧ e' ≤ L) ∧
      ListSlice.execute inputs rt =
        [("result", .arr (if s' < e' then (l.drop s'.toNat).take (e' - s').toNat else []))] ∧
      (¬ s' < e' → ListSlice.execute inputs rt = [("result", .arr [])]) ∧
      (ListSlice.execute inputs rt).lookup "error" = none) ∧
    (∀ (inputs : Entries) (rt : Option Rt) (t : String) (s e : ℤ),
      get_input asStr inputs "string" = some t →
      get_input asInt inputs "start" = some s →
      get_input asInt inputs "end" = some e →
      let L : ℤ := t.data.length
      let s' : ℤ := if s < 0 then max (L + s) 0 else min s L
      let e' : ℤ := if e < 0 then max (L + e) 0 else min e L
      (0 ≤ s' ∧ s' ≤ L ∧ 0 ≤ e' ∧ e' ≤ L) ∧
      StringSubstring.execute inputs rt =
        [("result", .str (if s' < e' then
            String.mk ((t.data.drop s'.toNat).take (e' - s').toNat) else ""))] ∧
      (¬ s' < e' → StringSubstring.execute inputs rt = [("result", .str "")]) ∧
      (StringSubstring.execute inputs rt).lookup "error" = none) := by
  have clamped : ∀ (L x : ℤ), 0 ≤ L →
      (0 ≤ (if x < 0 then max (L + x) 0 else min x L) ∧
        (if x < 0 then max (L + x) 0 else min x L) ≤ L) := by
    intro L x hL
    by_cases hx : x < 0 <;> simp [hx] <;> omega
  refine ⟨?_, ?_, ?_, ?_⟩
  · intro inputs rt l i h₁ h₂
    simp only [ListAt.execute, h₁, h₂, Option.getD_some]
  · intro inputs rt i h₁ h₂
    simp only [ListAt.execute, h₁, h₂, Option.getD_some]
    by_cases hi : i < 0 <;> simp [hi]
  · intro inputs rt l s e h₁ h₂ h₃
    have hL : (0 : ℤ) ≤ (l.length : ℤ) := Int.ofNat_nonneg _
    refine ⟨⟨(clamped _ s hL).1, (clamped _ s hL).2, (clamped _ e hL).1, (clamped _ e hL).2⟩,
      ?_, ?_, ?_⟩
    · simp only [ListSlice.execute, h₁, h₂, h₃, Option.getD_some]
    · intro hse
      simp only [ListSlice.execute, h₁, h₂, h₃, Option.getD_some, if_neg hse]
    · simp only [ListSlice.execute, h₁, h₂, h₃, Option.getD_some]
      rfl
  · intro inputs rt t s e h₁ h₂ h₃
    have hL : (0 : ℤ) ≤ (t.data.length : ℤ) := Int.ofNat_nonneg _
    refine ⟨⟨(clamped _ s hL).1, (clamped _ s hL).2, (clamped _ e hL).1, (clamped _ e hL).2⟩,
      ?_, ?_, ?_⟩
    · simp only [StringSubstring.execute, h₁, h₂, h₃, Option.getD_some]
    · intro hse
      simp only [StringSubstring.execute, h₁, h₂, h₃, Option.getD_some, if_neg hse]
    · simp only [StringSubstring.execute, h₁, h₂, h₃, Option.getD_some]
      rfl

/-- C3 witness: on `[10, 20, 30]` index `-1` resolves to the last
element, and slicing `[1, 2, 3, 4, 5]` with `start = 5`, `end = 1`
(clamped start not below clamped end) yields the empty list. -/
theorem index_normalization_and_clamping_witness :
    ListAt.execute [("list", .arr [.num 10, .num 20, .num 30]),
        ("index", .num ((-1 : ℤ) : ℚ))] none = [("result", .num 30)] ∧
    ListSlice.execute [("list", .arr [.num 1, .num 2, .num 3, .num 4, .num 5]),
        ("start", .num ((5 : ℤ) : ℚ)), ("end", .num ((1 : ℤ) : ℚ))] none
      = [("result", .arr [])] := by
  constructor
  · rw [index_normalization_and_clamping.1
      [("list", .arr [.num 10, .num 20, .num 30]), ("index", .num ((-1 : ℤ) : ℚ))] none
      [.num 10, .num 20, .num 30] (-1) (by decide) (by decide)]
    decide
  · exact (index_normalization_and_clamping.2.2.1
      [("list", .arr [.num 1, .num 2, .num 3, .num 4, .num 5]),
        ("start", .num ((5 : ℤ) : ℚ)), ("end", .num ((1 : ℤ) : ℚ))] none
      [.num 1, .num 2, .num 3, .num 4, .num 5] 5 1 (by decide) (by decide) (by decide)).2.2.1
      (by decide)

/-! ### The two string-truthiness contracts -/

/-- C4: string truthiness follows two distinct contracts.
`convert.to_boolean` (strict) maps a String to true exactly when its
lowercasing is `"true"`, `"1"` or `"yes"`; the logic nodes' shared
`to_bool` helper (loose, used by `logic.not`, `logic.or`, `logic.xor`)
maps a String to true exactly when it is non-empty.  On every non-String
variant the two contracts agree: Bool maps to itself, Number to
`≠ 0.0`, Null to false, List/Object to non-emptiness. -/
theorem string_truthiness_contracts :
    (∀ s, strictToBool (.str s)
        = (strLower s == "true" || strLower s == "1" || strLower s == "yes")) ∧
    (∀ s, to_bool (.str s) = !s.isEmpty) ∧
    (∀ v, (∀ s, v ≠ .str s) → strictToBool v = to_bool v) ∧
    (∀ b, strictToBool (.bool b) = b ∧ to_bool (.bool b) = b) ∧
    (∀ q, strictToBool (.num q) = (q != 0) ∧ to_bool (.num q) = (q != 0)) ∧
    (strictToBool .null = false ∧ to_bool .null = false) ∧
    (∀ l, strictToBool (.arr l) = !l.isEmpty ∧ to_bool (.arr l) = !l.isEmpty) ∧
    (∀ o, strictToBool (.obj o) = !o.isEmpty ∧ to_bool (.obj o) = !o.isEmpty) ∧
    (∀ inputs rt, ConvertToBoolean.execute inputs rt
        = [("result", .bool (strictToBool ((getRaw inputs "value").getD .null)))]) ∧
    (∀ inputs rt, LogicNot.execute inputs rt
        = [("result", .bool (!to_bool ((getRaw inputs "value").getD .null)))]) ∧
    (∀ inputs rt l, get_input asList inputs "values" = some l →
      LogicOr.execute inputs rt = [("result", .bool (l.any to_bool))]) ∧
    (∀ inputs rt l, get_input asList inputs "values" = some l →
      LogicXor.execute inputs rt = [("result", .bool ((l.filter to_bool).length == 1))]) := by
  refine ⟨fun s => rfl, fun s => rfl, ?_, fun b => ⟨rfl, rfl⟩, fun q => ⟨rfl, rfl⟩,
    ⟨rfl, rfl⟩, fun l => ⟨rfl, rfl⟩, fun o => ⟨rfl, rfl⟩, fun i rt => rfl, fun i rt => rfl,
    ?_, ?_⟩
  · intro v hv
    cases v with
    | str s => exact absurd rfl (hv s)
    | _ => rfl
  · intro i rt l h
    simp only [LogicOr.execute, h, Option.getD_some]
  · intro i rt l h
    simp only [LogicXor.execute, h, Option.getD_some]

/-- C4 witness: the non-String agreement conjunct applied at null, and
the two contracts observed to differ at the concrete string `"x"`
(strictly false, loosely true). -/
theorem string_truthiness_contracts_witness :
    strictToBool .null = to_bool .null ∧
    strictToBool (.str "x") = false ∧ to_bool (.str "x") = true := by
  refine ⟨string_truthiness_contracts.2.2.1 .null ?_, by decide, by decide⟩
  intro s h
  cases h

/-! ### math.divide -/

/-- C5: `math.divide` with fewer than two decoded operands returns
result 0 with error `"need at least 2 numbers"`; with any zero operand
after the first it returns result 0 with error `"division by zero"`
(in particular on `[24, 3, 0]`); otherwise it returns the left fold of
division over the operands and the output carries no `error` key. -/
theorem mathDivide_errors_and_fold :
    (∀ (inputs : Entries) (rt : Option Rt) (l : List ℚ),
      get_input asNumList inputs "numbers" = some l →
      (l.length < 2 →
        MathDivide.execute inputs rt
          = [("result", .num 0), ("error", .str "need at least 2 numbers")]) ∧
      (∀ n₀ t, l = n₀ :: t → t ≠ [] → (∃ x ∈ t, x = 0) →
        MathDivide.execute inputs rt
          = [("result", .num 0), ("error", .str "division by zero")]) ∧
      (∀ n₀ t, l = n₀ :: t → t ≠ [] → (∀ x ∈ t, x ≠ 0) →
        MathDivide.execute inputs rt = [("result", .num (t.foldl (· / ·) n₀))] ∧
        (MathDivide.execute inputs rt).lookup "error" = none)) ∧
    MathDivide.execute [("numbers", .arr [.num 24, .num 3, .num 0])] none
      = [("result", .num 0), ("error", .str "division by zero")] := by
  constructor
  · intro inputs rt l h
    refine ⟨?_, ?_, ?_⟩
    · intro hlen
      simp only [MathDivide.execute, h, Option.getD_some]
      match l, hlen with
      | [], _ => rfl
      | [_], _ => rfl
    · rintro n₀ t rfl ht ⟨x, hx, rfl⟩
      obtain ⟨n₁, t', rfl⟩ := List.exists_cons_of_ne_nil ht
      simp only [MathDivide.execute, h, Option.getD_some]
      rw [if_pos]
      simp only [List.any_eq_true, beq_iff_eq]
      exact ⟨0, hx, rfl⟩
    · rintro n₀ t rfl ht hnz
      obtain ⟨n₁, t', rfl⟩ := List.exists_cons_of_ne_nil ht
      simp only [MathDivide.execute, h, Option.getD_some]
      rw [if_neg]
      · exact ⟨rfl, rfl⟩
      · simp only [List.any_eq_true, beq_iff_eq, not_exists, not_and]
        intro x hx
        exact hnz x hx
  · decide

/-- C5 witness: the no-error conjunct applied to the concrete operand
list `[24, 3, 2]`: the result is the fold `24 / 3 / 2 = 4` with no
`error` key. -/
theorem mathDivide_errors_and_fold_witness :
    MathDivide.execute [("numbers", .arr [.num 24, .num 3, .num 2])] none
      = [("result", .num 4)] ∧
    (MathDivide.execute [("numbers", .arr [.num 24, .num 3, .num 2])] none).lookup "error"
      = none := by
  have h := ((mathDivide_errors_and_fold.1
    [("numbers", .arr [.num 24, .num 3, .num 2])] none [24, 3, 2] (by decide)).2.2
    24 [3, 2] rfl (by decide) (by decide))
  refine ⟨h.1.trans ?_, h.2⟩
  norm_num

/-! ### list.sort ordering -/

/-- C6: the `list.sort` comparator orders two Numbers by value (the
NaN fallback of `partial_cmp(..).unwrap_or(Equal)` is unreachable:
`serde_json::Number` cannot hold NaN, and the model's numbers are exact
rationals), two Strings by code-point lexicographic order, Bools with
false before true; null compares equal to null and less than every
non-null value; any two differing non-null variants compare equal.
`list.sort` stable-sorts by this comparator; sorting `[3, 1, 2]` yields
`[1, 2, 3]` and sorting `[null, 2, null, 1]` places both nulls first. -/
theorem listSort_ordering :
    (∀ q₁ q₂, cmpValue (.num q₁) (.num q₂)
        = if q₁ < q₂ then .lt else if q₂ < q₁ then .gt else .eq) ∧
    (∀ s₁ s₂, cmpValue (.str s₁) (.str s₂)
        = if strLt s₁ s₂ then .lt else if strLt s₂ s₁ then .gt else .eq) ∧
    (cmpValue (.bool false) (.bool true) = .lt ∧
      cmpValue (.bool true) (.bool false) = .gt ∧
      ∀ b, cmpValue (.bool b) (.bool b) = .eq) ∧
    (cmpValue .null .null = .eq ∧
      ∀ v, v ≠ .null → cmpValue .null v = .lt ∧ cmpValue v .null = .gt) ∧
    (∀ a b, vtag a ≠ vtag b → a ≠ .null → b ≠ .null → cmpValue a b = .eq) ∧
    (∀ (inputs : Entries) (rt : Option Rt) (l : List Value),
      get_input asList inputs "list" = some l →
      ListSort.execute inputs rt
        = [("result", .arr (sortStable (fun a b => cmpValue a b ≠ .gt) l))]) ∧
    ListSort.execute [("list", .arr [.num 3, .num 1, .num 2])] none
      = [("result", .arr [.num 1, .num 2, .num 3])] ∧
    ListSort.execute [("list", .arr [.null, .num 2, .null, .num 1])] none
      = [("result", .arr [.null, .null, .num 1, .num 2])] := by
  refine ⟨fun q₁ q₂ => rfl, fun s₁ s₂ => rfl, ⟨rfl, rfl, fun b => by cases b <;> rfl⟩,
    ⟨rfl, ?_⟩, ?_, ?_, by decide, by decide⟩
  · intro v hv
    cases v with
    | null => exact absurd rfl hv
    | _ => exact ⟨rfl, rfl⟩
  · intro a b htag ha hb
    cases a <;> cases b <;> first
      | rfl
      | exact absurd rfl ha
      | exact absurd rfl hb
      | exact absurd rfl htag
  · intro inputs rt l h
    simp only [ListSort.execute, h, Option.getD_some]

/-- C6 witness: the null-least conjunct applied at the concrete value
`2`, and the mixed-variant conjunct applied at a Number/String pair. -/
theorem listSort_ordering_witness :
    (cmpValue .null (.num 2) = .lt ∧ cmpValue (.num 2) .null = .gt) ∧
    cmpValue (.num 1) (.str "a") = .eq :=
  ⟨listSort_ordering.2.2.2.1.2 (.num 2) (by decide),
    listSort_ordering.2.2.2.2.1 (.num 1) (.str "a") (by decide) (by decide) (by decide)⟩

/-! ### Read-only store operations without a snapshot -/

/-- C7: `var.get` with a `"key"` input and a supplied `"default"` but no
store snapshot — or a runtime of an unexpected dynamic type — returns the
default and reports `exists = false`; and each read-only store operation
(`var.get`, `var.exists`, `var.keys`) behaves, on any inputs, identically
with no runtime, with a non-store runtime, and with an empty store: as
though the store were empty, never failing. -/
theorem store_reads_absent_snapshot :
    (∀ (k : String) (d : Value),
      VarGet.execute [("key", .str k), ("default", d)] none
        = [("result", d), ("exists", .bool false)] ∧
      VarGet.execute [("key", .str k), ("default", d)] (some .other)
        = [("result", d), ("exists", .bool false)]) ∧
    (∀ inputs : Entries,
      VarGet.execute inputs none = VarGet.execute inputs (some .other) ∧
      VarGet.execute inputs none = VarGet.execute inputs (some (.store []))) ∧
    (∀ inputs : Entries,
      VarExists.execute inputs none = VarExists.execute inputs (some .other) ∧
      VarExists.execute inputs none = VarExists.execute inputs (some (.store []))) ∧
    (∀ inputs : Entries,
      VarKeys.execute inputs none = VarKeys.execute inputs (some .other) ∧
      VarKeys.execute inputs none = VarKeys.execute inputs (some (.store [])) ∧
      VarKeys.execute inputs none = [("result", .arr [])]) := by
  refine ⟨?_, ?_, ?_, fun i => ⟨rfl, rfl, rfl⟩⟩
  · intro k d
    exact ⟨rfl, rfl⟩
  · intro i
    constructor <;>
      simp only [VarGet.execute, downcastStore, storeContains, List.lookup_nil,
        Option.getD_none, Option.isSome_none]
  · intro i
    constructor <;>
      simp only [VarExists.execute, downcastStore, storeContains, List.lookup_nil,
        Option.isSome_none]

/-! ### convert.to_object -/

/-- C8: `convert.to_object` maps an Object to itself; maps a List by
folding each element that is a list of two or more elements with a
String first element into a map entry (key = first element, value =
second), silently skipping every non-conforming element with no
`error` key ever produced; and maps every other variant to the empty
object.  In particular `[["a",1],["b",2]]` yields `{"a":1,"b":2}` and
the malformed pair `[1,2]` is skipped. -/
theorem convertToObject_pairs :
    (∀ (o : List (String × Value)) (rt : Option Rt),
      ConvertToObject.execute [("value", .obj o)] rt = [("result", .obj o)]) ∧
    (∀ (a : List Value) (rt : Option Rt),
      ConvertToObject.execute [("value", .arr a)] rt
        = [("result", .obj (a.foldl toObjectStep [])) ] ∧
      (ConvertToObject.execute [("value", .arr a)] rt).lookup "error" = none) ∧
    (∀ obj k v rest, toObjectStep obj (.arr (.str k :: v :: rest)) = mapInsert k v obj) ∧
    (∀ obj item, (∀ k v rest, item ≠ .arr (.str k :: v :: rest)) →
      toObjectStep obj item = obj) ∧
    (∀ (v : Value) (rt : Option Rt), vtag v ≠ 4 → vtag v ≠ 5 →
      ConvertToObject.execute [("value", v)] rt = [("result", .obj [])]) ∧
    ConvertToObject.execute
        [("value", .arr [.arr [.str "a", .num 1], .arr [.str "b", .num 2]])] none
      = [("result", .obj [("a", .num 1), ("b", .num 2)])] ∧
    ConvertToObject.execute
        [("value", .arr [.arr [.num 1, .num 2], .arr [.str "b", .num 2]])] none
      = [("result", .obj [("b", .num 2)])] := by
  refine ⟨fun o rt => rfl, fun a rt => ⟨rfl, rfl⟩, fun obj k v rest => rfl, ?_, ?_,
    by decide, by decide⟩
  · intro obj item hitem
    cases item with
    | arr l =>
      match l with
      | [] => rfl
      | x :: rest =>
        cases x with
        | str k =>
          match rest with
          | [] => rfl
          | v :: rest' => exact absurd rfl (hitem k v rest')
        | _ => rfl
    | _ => rfl
  · intro v rt h₄ h₅
    cases v <;> first
      | rfl
      | exact absurd rfl h₄
      | exact absurd rfl h₅

/-- C8 witness: the skip conjunct applied to the malformed pair
`[1, 2]` (non-string key), which leaves the accumulated object
unchanged. -/
theorem convertToObject_pairs_witness :
    toObjectStep [] (.arr [.num 1, .num 2]) = [] :=
  convertToObject_pairs.2.2.2.1 [] (.arr [.num 1, .num 2])
    (by intro k v rest h; simp at h)

/-! ### All-or-nothing typed input decoding -/

theorem decodeList_eq_none {α : Type} {dec : Value → Option α} {l : List Value}
    {v : Value} (hv : v ∈ l) (hn : dec v = none) : decodeList dec l = none := by
  induction l with
  | nil => cases hv
  | cons x xs ih =>
    rcases List.mem_cons.mp hv with rfl | hmem
    · simp [decodeList, hn]
    · cases hx : dec x <;> simp [decodeList, hx, ih hmem]

/-- C10: decoding a typed list input is all-or-nothing, not element-wise:
one element of the wrong type makes the whole decode fail and the input
falls back to the per-key default.  A `Vec<f64>` decode fails as soon as
any element is a non-Number; hence `math.add` on `[1, 2, "3"]` treats the
input as the empty list and returns 0, and `list.at` with a non-Array
`"list"` input behaves exactly as if the list were empty. -/
theorem typed_list_decode_all_or_nothing :
    (∀ (l : List Value) (v : Value), v ∈ l → asNum v = none →
      asNumList (.arr l) = none) ∧
    MathAdd.execute [("numbers", .arr [.num 1, .num 2, .str "3"])] none
      = [("result", .num 0)] ∧
    (∀ (inputs : Entries) (rt : Option Rt) (v : Value),
      getRaw inputs "list" = some v → asList v = none →
      ListAt.execute inputs rt = [("result", .null)]) := by
  refine ⟨?_, ?_, ?_⟩
  · intro l v hv hn
    simpa [asNumList] using decodeList_eq_none hv hn
  · have : asNumList (.arr [.num 1, .num 2, .str "3"]) = none := by decide
    simp [MathAdd.execute, get_input, getRaw, this]
  · intro inputs rt v hget hv
    simp only [ListAt.execute, get_input, hget, Option.some_bind, hv, Option.getD_none,
      List.length_nil, Nat.cast_zero]
    by_cases hi : ((getRaw inputs "index").bind asInt).getD 0 < 0 <;> simp [hi]

/-- C10 witness: the decoder conjunct applied to the concrete list
`[1, 2, "3"]` (its element `"3"` is not a Number), and the `list.at`
conjunct applied to the non-Array input `"oops"`. -/
theorem typed_list_decode_all_or_nothing_witness :
    asNumList (.arr [.num 1, .num 2, .str "3"]) = none ∧
    ListAt.execute [("list", .str "oops")] none = [("result", .null)] :=
  ⟨typed_list_decode_all_or_nothing.1 [.num 1, .num 2, .str "3"] (.str "3")
      (List.mem_cons_of_mem _ (List.mem_cons_of_mem _ (List.mem_cons_self _ _))) rfl,
    typed_list_decode_all_or_nothing.2.2 [("list", .str "oops")] none (.str "oops")
      rfl rfl⟩

/-! ### Order facts for `strLt` and the sorted-insertion identity -/

theorem ltCharList_irrefl : ∀ as, ltCharList as as = false
  | [] => rfl
  | a :: as => by simp [ltCharList, ltCharList_irrefl as]

theorem ltCharList_asymm : ∀ as bs, ltCharList as bs = true → ltCharList bs as = false
  | [], [] => by simp [ltCharList]
  | [], _ :: _ => fun _ => rfl
  | _ :: _, [] => by simp [ltCharList]
  | a :: as, b :: bs => by
    by_cases hab : a < b
    · have hba : ¬ b < a := lt_asymm hab
      simp [ltCharList, hab, hba]
    · by_cases hba : b < a
      · simp [ltCharList, hab, hba]
      · simp only [ltCharList, if_neg hab, if_neg hba]
        exact ltCharList_asymm as bs

theorem ltCharList_trans :
    ∀ as bs cs, ltCharList as bs = true → ltCharList bs cs = true →
      ltCharList as cs = true
  | [], [], [], hab, _ => by simp [ltCharList] at hab
  | [], _ :: _, [], _, hbc => by simp [ltCharList] at hbc
  | [], _, _ :: _, _, _ => rfl
  | _ :: _, [], _, hab, _ => by simp [ltCharList] at hab
  | _ :: _, _ :: _, [], _, hbc => by simp [ltCharList] at hbc
  | a :: as, b :: bs, c :: cs, hab, hbc => by
    by_cases h₁ : a < b
    · by_cases h₂ : b < c
      · simp [ltCharList, lt_trans h₁ h₂]
      · by_cases h₃ : c < b
        · simp [ltCharList, h₂, h₃] at hbc
        · have : b = c := le_antisymm (not_lt.mp h₃) (not_lt.mp h₂)
          subst this
          simp [ltCharList, h₁]
    · by_cases h₄ : b < a
      · simp [ltCharList, h₁, h₄] at hab
      · have hba : a = b := le_antisymm (not_lt.mp h₄) (not_lt.mp h₁)
        subst hba
        by_cases h₂ : a < c
        · simp [ltCharList, h₂]
        · by_cases h₃ : c < a
          · simp [ltCharList, h₂, h₃] at hbc
          · simp only [ltCharList, if_neg h₁, if_neg h₄] at hab
            simp only [ltCharList, if_neg h₂, if_neg h₃] at hbc ⊢
            exact ltCharList_trans as bs cs hab hbc

theorem strLt_irrefl (a : String) : strLt a a = false := ltCharList_irrefl a.data

theorem strLt_asymm {a b : String} (h : strLt a b = true) : strLt b a = false :=
  ltCharList_asymm a.data b.data h

theorem strLt_trans {a b c : String} (hab : strLt a b = true) (hbc : strLt b c = true) :
    strLt a c = true :=
  ltCharList_trans a.data b.data c.data hab hbc

theorem mapInsert_of_forall_lt (k : String) (v : Value) :
    ∀ m, (∀ p ∈ m, strLt p.1 k = true) → mapInsert k v m = m ++ [(k, v)]
  | [], _ => rfl
  | (k', v') :: rest, h => by
    have hk' : strLt k' k = true := h (k', v') (List.mem_cons_self _ _)
    have h₁ : strLt k k' = false := strLt_asymm hk'
    have h₂ : k ≠ k' := by
      rintro rfl
      rw [strLt_irrefl] at hk'
      cases hk'
    simp only [mapInsert, h₁, if_neg h₂, Bool.false_eq_true, if_false, List.cons_append,
      List.cons.injEq, true_and]
    exact mapInsert_of_forall_lt k v rest fun p hp => h p (List.mem_cons_of_mem _ hp)

theorem keysSorted_head_lt :
    ∀ (k : String) (v : Value) rest, keysSorted ((k, v) :: rest) = true →
      ∀ q ∈ rest, strLt k q.1 = true
  | _, _, [], _, q, hq => by cases hq
  | k, v, (k₂, v₂) :: rest, h, q, hq => by
    simp only [keysSorted, Bool.and_eq_true] at h
    rcases List.mem_cons.mp hq with rfl | hq'
    · exact h.1
    · exact strLt_trans h.1 (keysSorted_head_lt k₂ v₂ rest h.2 q hq')

theorem keysSorted_tail :
    ∀ (e : String × Value) rest, keysSorted (e :: rest) = true → keysSorted rest = true
  | _, [], _ => rfl
  | (k, v), (k₂, v₂) :: rest, h => by
    simp only [keysSorted, Bool.and_eq_true] at h
    exact h.2

theorem foldl_mapInsert_sorted_aux :
    ∀ (m acc : List (String × Value)), keysSorted m = true →
      (∀ p ∈ acc, ∀ q ∈ m, strLt p.1 q.1 = true) →
      m.foldl (fun acc kv => mapInsert kv.1 kv.2 acc) acc = acc ++ m
  | [], acc, _, _ => by simp
  | (k, v) :: rest, acc, hs, hlt => by
    have hstep : mapInsert k v acc = acc ++ [(k, v)] :=
      mapInsert_of_forall_lt k v acc fun p hp =>
        hlt p hp (k, v) (List.mem_cons_self _ _)
    have hrest : keysSorted rest = true := keysSorted_tail (k, v) rest hs
    have hlt' : ∀ p ∈ acc ++ [(k, v)], ∀ q ∈ rest, strLt p.1 q.1 = true := by
      intro p hp q hq
      rcases List.mem_append.mp hp with hp' | hp'
      · exact hlt p hp' q (List.mem_cons_of_mem _ hq)
      · rcases List.mem_singleton.mp hp' with rfl
        exact keysSorted_head_lt k v rest hs q hq
    calc ((k, v) :: rest).foldl (fun acc kv => mapInsert kv.1 kv.2 acc) acc
        = rest.foldl (fun acc kv => mapInsert kv.1 kv.2 acc) (acc ++ [(k, v)]) := by
          simp [hstep]
      _ = (acc ++ [(k, v)]) ++ rest := foldl_mapInsert_sorted_aux rest _ hrest hlt'
      _ = acc ++ ((k, v) :: rest) := by simp

/-- Re-inserting a sorted map's entries in order rebuilds the map. -/
theorem foldl_mapInsert_sorted (m : List (String × Value)) (hs : keysSorted m = true) :
    m.foldl (fun acc kv => mapInsert kv.1 kv.2 acc) [] = m := by
  simpa using foldl_mapInsert_sorted_aux m [] hs (by intro p hp; cases hp)

/-! ### Digit printing and parsing facts -/

theorem isDigitCh_digitChar {d : ℕ} (h : d < 10) : isDigitCh (digitChar d) = true := by
  interval_cases d <;> decide

theorem digitVal_digitChar {d : ℕ} (h : d < 10) : digitVal (digitChar d) = d := by
  interval_cases d <;> decide

theorem digitsVal_append (ds : List Char) (c : Char) :
    digitsVal (ds ++ [c]) = 10 * digitsVal ds + digitVal c := by
  simp [digitsVal, List.foldl_append]

theorem natDigitsAux_digits :
    ∀ (fuel n : ℕ), ∀ c ∈ natDigitsAux fuel n, isDigitCh c = true := by
  intro fuel
  induction fuel with
  | zero => intro n c hc; cases hc
  | succ fuel ih =>
    intro n c hc
    by_cases hn : n = 0
    · simp [natDigitsAux, hn] at hc
    · simp only [natDigitsAux, if_neg hn, List.mem_append, List.mem_singleton] at hc
      rcases hc with hc | rfl
      · exact ih _ c hc
      · exact isDigitCh_digitChar (Nat.mod_lt _ (by norm_num))

theorem digitsVal_natDigitsAux :
    ∀ (fuel n : ℕ), n < 10 ^ fuel → digitsVal (natDigitsAux fuel n) = n := by
  intro fuel
  induction fuel with
  | zero => intro n hn; interval_cases n; rfl
  | succ fuel ih =>
    intro n hn
    by_cases h0 : n = 0
    · simp [natDigitsAux, h0, digitsVal]
    · rw [natDigitsAux, if_neg h0, digitsVal_append,
        ih (n / 10) (by rw [Nat.div_lt_iff_lt_mul (by norm_num)]; rw [pow_succ] at hn; omega),
        digitVal_digitChar (Nat.mod_lt _ (by norm_num))]
      omega

theorem natChars_digits (n : ℕ) : ∀ c ∈ natChars n, isDigitCh c = true := by
  intro c hc
  by_cases h0 : n = 0
  · simp [natChars, h0] at hc
    subst hc; decide
  · rw [natChars, if_neg h0] at hc
    exact natDigitsAux_digits _ _ c hc

theorem digitsVal_natChars (n : ℕ) : digitsVal (natChars n) = n := by
  by_cases h0 : n = 0
  · subst h0; decide
  · rw [natChars, if_neg h0]
    refine digitsVal_natDigitsAux _ _ ?_
    calc n < 10 ^ n := Nat.lt_pow_self (by norm_num) n
    _ ≤ 10 ^ (n + 1) := Nat.pow_le_pow_right (by norm_num) (Nat.le_succ n)

theorem natChars_ne_nil (n : ℕ) : natChars n ≠ [] := by
  by_cases h0 : n = 0
  · simp [natChars, h0]
  · rw [natChars, if_neg h0]
    cases hn : natDigitsAux (n + 1) n with
    | nil =>
      have := digitsVal_natDigitsAux (n + 1) n (by
        calc n < 10 ^ n := Nat.lt_pow_self (by norm_num) n
        _ ≤ 10 ^ (n + 1) := Nat.pow_le_pow_right (by norm_num) (Nat.le_succ n))
      rw [hn] at this
      exact absurd this.symm (by simpa [digitsVal] using h0)
    | cons c cs => simp

theorem natDigitsFix_length : ∀ (k m : ℕ), (natDigitsFix k m).length = k
  | 0, _ => rfl
  | k + 1, m => by simp [natDigitsFix, natDigitsFix_length k (m / 10)]

theorem natDigitsFix_digits :
    ∀ (k m : ℕ), ∀ c ∈ natDigitsFix k m, isDigitCh c = true
  | 0, _, c, hc => by cases hc
  | k + 1, m, c, hc => by
    simp only [natDigitsFix, List.mem_append, List.mem_singleton] at hc
    rcases hc with hc | rfl
    · exact natDigitsFix_digits k _ c hc
    · exact isDigitCh_digitChar (Nat.mod_lt _ (by norm_num))

theorem digitsVal_natDigitsFix :
    ∀ (k m : ℕ), m < 10 ^ k → digitsVal (natDigitsFix k m) = m
  | 0, m, hm => by interval_cases m; rfl
  | k + 1, m, hm => by
    rw [natDigitsFix, digitsVal_append,
      digitsVal_natDigitsFix k (m / 10)
        (by rw [Nat.div_lt_iff_lt_mul (by norm_num)]; rw [pow_succ] at hm; omega),
      digitVal_digitChar (Nat.mod_lt _ (by norm_num))]
    omega

/-! ### Span of a printed digit run -/

theorem takeWhile_append_of {p : Char → Bool} :
    ∀ (xs rest : List Char), (∀ c ∈ xs, p c = true) →
      (∀ c, rest.head? = some c → p c = false) →
      (xs ++ rest).takeWhile p = xs
  | [], [], _, _ => rfl
  | [], c :: t, _, hrest => by
    simp [List.takeWhile_cons, hrest c rfl]
  | x :: xs, rest, hxs, hrest => by
    rw [List.cons_append, List.takeWhile_cons, if_pos (by simp [hxs x (List.mem_cons_self _ _)])]
    rw [takeWhile_append_of xs rest (fun c hc => hxs c (List.mem_cons_of_mem _ hc)) hrest]

theorem dropWhile_append_of {p : Char → Bool} :
    ∀ (xs rest : List Char), (∀ c ∈ xs, p c = true) →
      (∀ c, rest.head? = some c → p c = false) →
      (xs ++ rest).dropWhile p = rest
  | [], [], _, _ => rfl
  | [], c :: t, _, hrest => by
    simp [List.dropWhile_cons, hrest c rfl]
  | x :: xs, rest, hxs, hrest => by
    simp only [List.cons_append, List.dropWhile_cons, hxs x (List.mem_cons_self _ _),
      if_true]
    exact dropWhile_append_of xs rest (fun c hc => hxs c (List.mem_cons_of_mem _ hc)) hrest

theorem span_append_of {p : Char → Bool} (xs rest : List Char)
    (hxs : ∀ c ∈ xs, p c = true) (hrest : ∀ c, rest.head? = some c → p c = false) :
    (xs ++ rest).span p = (xs, rest) := by
  rw [List.span_eq_take_drop, takeWhile_append_of xs rest hxs hrest,
    dropWhile_append_of xs rest hxs hrest]

/-! ### The decimal exponent of a representable denominator -/

theorem decExp_dvd {d : ℕ} (h : (List.range (d + 1)).any (fun k => 10 ^ k % d == 0) = true) :
    d ∣ 10 ^ decExp d := by
  unfold decExp
  cases hfind : (List.range (d + 1)).find? (fun k => 10 ^ k % d == 0) with
  | none =>
    exfalso
    rcases List.any_eq_true.mp h with ⟨k, hk_mem, hk⟩
    exact absurd hk (by simpa using List.find?_eq_none.mp hfind k hk_mem)
  | some x =>
    have hx := List.find?_some hfind
    simp only [beq_iff_eq] at hx
    simpa using Nat.dvd_of_mod_eq_zero hx

/-! ### The printed magnitude parses back to the absolute value -/

theorem rat_abs_eq (q : ℚ) : |q| = (q.num.natAbs : ℚ) / (q.den : ℚ) := by
  conv_lhs => rw [← Rat.num_div_den q]
  rw [abs_div]
  congr 1
  · rw [Int.cast_natAbs, Int.cast_abs]
  · exact abs_of_pos (by positivity)

theorem scaled_cast_eq (q : ℚ) (k : ℕ) (hdvd : q.den ∣ 10 ^ k) :
    ((q.num.natAbs * 10 ^ k / q.den : ℕ) : ℚ) = (q.num.natAbs : ℚ) * 10 ^ k / q.den := by
  have hden : (q.den : ℚ) ≠ 0 := Nat.cast_ne_zero.mpr q.den_nz
  have hd : q.den ∣ q.num.natAbs * 10 ^ k := Dvd.dvd.mul_left hdvd _
  have h := Nat.div_mul_cancel hd
  field_simp

theorem mag_eq_abs (q : ℚ) (k : ℕ) (hdvd : q.den ∣ 10 ^ k) :
    ((q.num.natAbs * 10 ^ k / q.den / 10 ^ k : ℕ) : ℚ)
      + ((q.num.natAbs * 10 ^ k / q.den % 10 ^ k : ℕ) : ℚ) / (10 : ℚ) ^ k = |q| := by
  have hpow : ((10 : ℚ) ^ k) ≠ 0 := by positivity
  have hden : (q.den : ℚ) ≠ 0 := Nat.cast_ne_zero.mpr q.den_nz
  set scaled : ℕ := q.num.natAbs * 10 ^ k / q.den with hscaled
  have hsum : (10 ^ k * (scaled / 10 ^ k) + scaled % 10 ^ k : ℕ) = scaled :=
    Nat.div_add_mod scaled (10 ^ k)
  have hsumQ : (10 : ℚ) ^ k * ((scaled / 10 ^ k : ℕ) : ℚ) + ((scaled % 10 ^ k : ℕ) : ℚ)
      = (scaled : ℚ) := by exact_mod_cast congrArg (Nat.cast : ℕ → ℚ) hsum
  have hstep : ((scaled / 10 ^ k : ℕ) : ℚ) + ((scaled % 10 ^ k : ℕ) : ℚ) / (10 : ℚ) ^ k
      = (scaled : ℚ) / 10 ^ k := by
    field_simp
    linarith [hsumQ]
  rw [hstep, hscaled, scaled_cast_eq q k hdvd]
  rw [rat_abs_eq q]
  field_simp
  ring

theorem signPart_neg (t : List Char) : signPart ('-' :: t) = (true, t) := by
  simp [signPart]

theorem signPart_not_neg {c : Char} (t : List Char) (hc : c ≠ '-') :
    signPart (c :: t) = (false, c :: t) := by
  simp [signPart, hc]

theorem fracPart_not_dot : ∀ (s : List Char), (∀ c, s.head? = some c → c ≠ '.') →
    fracPart s = ([], s)
  | [], _ => rfl
  | c :: t, h => by simp [fracPart, h c rfl]

theorem expPart_not_exp : ∀ (s : List Char),
    (∀ c, s.head? = some c → c ≠ 'e' ∧ c ≠ 'E') → expPart s = (0, s)
  | [], _ => rfl
  | c :: t, h => by simp [expPart, (h c rfl).1, (h c rfl).2]

theorem fracPart_dot (t : List Char) :
    fracPart ('.' :: t)
      = (let (fp, t') := t.span isDigitCh; if fp.isEmpty then ([], '.' :: t) else (fp, t')) := by
  simp [fracPart]

theorem parseNumTok_body (neg : Prop) [Decidable neg] (A F k : ℕ) (hF : F < 10 ^ k)
    (rest : List Char) (hrest : NumDelim rest) :
    parseNumTok ((if neg then ['-'] else []) ++ natChars A
        ++ (if k = 0 then ([] : List Char) else '.' :: natDigitsFix k F) ++ rest)
      = some (((if neg then -1 else 1) * ((A : ℚ) + (F : ℚ) / 10 ^ k)), rest) := by
  obtain ⟨c₀, t₀, hA⟩ := List.exists_cons_of_ne_nil (natChars_ne_nil A)
  have hc₀ : isDigitCh c₀ = true :=
    natChars_digits A c₀ (by rw [hA]; exact List.mem_cons_self _ _)
  have hc₀ne : c₀ ≠ '-' := fun h => by rw [h] at hc₀; exact absurd hc₀ (by decide)
  set tail : List Char := (if k = 0 then ([] : List Char) else '.' :: natDigitsFix k F)
    ++ rest with htail
  have htailhead : ∀ c, tail.head? = some c → isDigitCh c = false := by
    intro c hc
    rw [htail] at hc
    by_cases hk : k = 0
    · rw [if_pos hk, List.nil_append] at hc
      exact (hrest c hc).1
    · rw [if_neg hk, List.cons_append, List.head?_cons, Option.some.injEq] at hc
      subst hc; decide
  have hspan : (natChars A ++ tail).span isDigitCh = (natChars A, tail) :=
    span_append_of _ _ (natChars_digits A) htailhead
  have hsign : signPart ((if neg then ['-'] else []) ++ natChars A ++ tail)
      = ((if neg then true else false : Bool), natChars A ++ tail) := by
    by_cases hn : neg
    · simp only [if_pos hn, List.cons_append, List.nil_append]
      exact signPart_neg _
    · simp only [if_neg hn, List.nil_append, hA, List.cons_append]
      rw [signPart_not_neg _ hc₀ne, ← List.cons_append, ← hA]
  have hfrac : fracPart tail
      = ((if k = 0 then ([] : List Char) else natDigitsFix k F), rest) := by
    rw [htail]
    by_cases hk : k = 0
    · rw [if_pos hk, if_pos hk, List.nil_append]
      exact fracPart_not_dot rest fun c hc => (hrest c hc).2.1
    · rw [if_neg hk, if_neg hk, List.cons_append]
      have hfix : (natDigitsFix k F ++ rest).span isDigitCh = (natDigitsFix k F, rest) :=
        span_append_of _ _ (natDigitsFix_digits k F) fun c hc => (hrest c hc).1
      have hne : (natDigitsFix k F).isEmpty = false := by
        cases hfd : natDigitsFix k F with
        | nil =>
          have := natDigitsFix_length k F
          rw [hfd] at this
          exact absurd this.symm hk
        | cons _ _ => rfl
      rw [fracPart_dot, hfix]
      simp [hne]
  have hexp : expPart rest = (0, rest) :=
    expPart_not_exp rest fun c hc => ⟨(hrest c hc).2.2.1, (hrest c hc).2.2.2⟩
  have hipne : (natChars A).isEmpty = false := by
    rw [hA]; rfl
  have hfpval : digitsVal (if k = 0 then ([] : List Char) else natDigitsFix k F)
      = F := by
    by_cases hk : k = 0
    · rw [if_pos hk]
      rw [hk, pow_zero] at hF
      interval_cases F
      rfl
    · rw [if_neg hk]
      exact digitsVal_natDigitsFix k F hF
  have hfplen : (if k = 0 then ([] : List Char) else natDigitsFix k F).length
      = (if k = 0 then 0 else k) := by
    by_cases hk : k = 0 <;> simp [hk, natDigitsFix_length]
  rw [parseNumTok, List.append_assoc, ← htail, hsign]
  simp only [hspan, hipne, Bool.false_eq_true, if_false, hfrac, hexp,
    digitsVal_natChars, hfpval, hfplen]
  congr 1
  congr 1
  · by_cases hn : neg
    · simp only [if_pos hn, zpow_zero, mul_one, neg_mul, one_mul]
      by_cases hk : k = 0 <;> simp [hk]
    · simp only [if_neg hn, zpow_zero, mul_one, one_mul]
      by_cases hk : k = 0 <;> simp [hk]

/-- Parsing the printed decimal text of a representable rational yields
the rational back exactly, leaving the delimiter untouched. -/
theorem parseNumTok_numChars (q : ℚ) (hq : numOk q = true) (rest : List Char)
    (hrest : NumDelim rest) : parseNumTok (numChars q ++ rest) = some (q, rest) := by
  have hdvd : q.den ∣ 10 ^ decExp q.den := decExp_dvd (by simpa [numOk] using hq)
  have hshape : numChars q = (if q.num < 0 then ['-'] else []) ++
      natChars (q.num.natAbs * 10 ^ decExp q.den / q.den / 10 ^ decExp q.den) ++
      (if decExp q.den = 0 then ([] : List Char)
        else '.' :: natDigitsFix (decExp q.den)
          (q.num.natAbs * 10 ^ decExp q.den / q.den % 10 ^ decExp q.den)) := by
    rw [numChars]
    by_cases hk : decExp q.den = 0
    · rw [if_pos hk, hk]
      simp
    · rw [if_neg hk, if_neg hk]
  rw [hshape, parseNumTok_body (q.num < 0) _ _ _
    (Nat.mod_lt _ (Nat.pos_pow_of_pos _ (by norm_num))) rest hrest]
  congr 1
  congr 1
  rw [mag_eq_abs q (decExp q.den) hdvd]
  by_cases hn : q.num < 0
  · rw [if_pos hn, abs_of_neg ?hqneg, neg_one_mul, neg_neg]
    case hqneg => exact Rat.num_neg.mp hn
  · rw [if_neg hn, one_mul, abs_of_nonneg]
    exact Rat.num_nonneg.mp (not_lt.mp hn)

/-! ### String escaping round trip -/

theorem hexVal_hexChar {n : ℕ} (h : n < 16) : hexVal (hexChar n) = some n := by
  interval_cases n <;> decide

theorem parseStrBody_roundtrip :
    ∀ (cs rest : List Char),
      parseStrBody ((cs.map escapeChar).flatten ++ '"' :: rest) = some (cs, rest)
  | [], rest => by unfold parseStrBody; simp
  | c :: cs, rest => by
    have ih := parseStrBody_roundtrip cs rest
    simp only [List.map_cons, List.flatten_cons, List.append_assoc]
    by_cases hq : c = '"'
    · subst hq
      simp only [escapeChar]; unfold parseStrBody; simp [ih]
    · by_cases hb : c = '\\'
      · subst hb
        simp only [escapeChar]; unfold parseStrBody; simp [ih]
      · by_cases hctl : c.toNat < 0x20
        · by_cases h1 : c = '\x08'
          · subst h1; simp only [escapeChar]; unfold parseStrBody; simp [ih]
          · by_cases h2 : c = '\t'
            · subst h2; simp only [escapeChar]; unfold parseStrBody; simp [ih]
            · by_cases h3 : c = '\n'
              · subst h3; simp only [escapeChar]; unfold parseStrBody; simp [ih]
              · by_cases h4 : c = '\x0c'
                · subst h4; simp only [escapeChar]; unfold parseStrBody; simp [ih]
                · by_cases h5 : c = '\r'
                  · subst h5; simp only [escapeChar]; unfold parseStrBody; simp [ih]
                  · have hesc : escapeChar c
                        = ['\\', 'u', '0', '0', hexChar (c.toNat / 16),
                            hexChar (c.toNat % 16)] := by
                      simp [escapeChar, hq, hb, hctl, h1, h2, h3, h4, h5]
                    have hhi : hexVal (hexChar (c.toNat / 16)) = some (c.toNat / 16) :=
                      hexVal_hexChar (by omega)
                    have hlo : hexVal (hexChar (c.toNat % 16)) = some (c.toNat % 16) :=
                      hexVal_hexChar (Nat.mod_lt _ (by norm_num))
                    have hval : ((0 * 16 + 0) * 16 + c.toNat / 16) * 16 + c.toNat % 16
                        = c.toNat := by omega
                    rw [hesc]
                    simp only [List.cons_append, List.nil_append]
                    unfold parseStrBody
                    rw [if_neg (by decide : ¬ ('\\' : Char) = '"'), if_pos rfl]
                    have h0 : hexVal '0' = some 0 := by decide
                    have hn : c.toNat < 55296 := by omega
                    simp only [h0, hhi, hlo, ih, Option.map_some]
                    rw [show ((0 * 16 + 0) * 16 + c.toNat / 16) * 16 + c.toNat % 16
                        = c.toNat by omega]
                    rw [if_pos hn, Char.ofNat_toNat]
                    simp
        · have hesc : escapeChar c = [c] := by
            simp [escapeChar, hq, hb, hctl]
          rw [hesc]
          simp only [List.cons_append, List.nil_append]
          unfold parseStrBody
          rw [if_neg hq, if_neg hb, if_neg hctl]
          simp [ih]

/-! ### Delimiters and printed head characters -/

theorem delimOk_nil : DelimOk [] := fun c hc => by cases hc

theorem delimOk_cons {c₀ : Char} (h : c₀ = ',' ∨ c₀ = ']' ∨ c₀ = '}') (r : List Char) :
    DelimOk (c₀ :: r) := fun c hc => by
  rw [List.head?_cons, Option.some.injEq] at hc
  subst hc
  exact h

theorem DelimOk.toNumDelim {rest : List Char} (h : DelimOk rest) : NumDelim rest := by
  intro c hc
  rcases h c hc with rfl | rfl | rfl
  · exact ⟨by decide, by decide, by decide, by decide⟩
  · exact ⟨by decide, by decide, by decide, by decide⟩
  · exact ⟨by decide, by decide, by decide, by decide⟩

theorem DelimOk.head_not_ws {rest : List Char} (h : DelimOk rest) :
    ∀ c, rest.head? = some c → isWsChar c = false := by
  intro c hc
  rcases h c hc with rfl | rfl | rfl
  · rfl
  · rfl
  · rfl

theorem skipWs_of_head :
    ∀ s : List Char, (∀ c, s.head? = some c → isWsChar c = false) → skipWs s = s
  | [], _ => rfl
  | c :: t, h => by simp [skipWs, List.dropWhile_cons, h c rfl]

theorem skipWs_cons {c : Char} (hc : isWsChar c = false) (t : List Char) :
    skipWs (c :: t) = c :: t := by
  simp [skipWs, List.dropWhile_cons, hc]

theorem isDigitCh_head_facts {c : Char} (h : isDigitCh c = true) :
    isWsChar c = false ∧ c ≠ 'n' ∧ c ≠ 't' ∧ c ≠ 'f' ∧ c ≠ '"' ∧ c ≠ '[' ∧ c ≠ '{' ∧
      c ≠ ']' ∧ c ≠ '}' ∧ c ≠ '-' := by
  refine ⟨?_, ?_, ?_, ?_, ?_, ?_, ?_, ?_, ?_, ?_⟩
  · cases hws : isWsChar c with
    | false => rfl
    | true =>
      exfalso
      simp only [isWsChar, Bool.or_eq_true, decide_eq_true_eq] at hws
      rcases hws with ((rfl | rfl) | rfl) | rfl <;> exact absurd h (by decide)
  all_goals rintro rfl
  all_goals exact absurd h (by decide)

/-- The printed number is a sign block followed by digits and a tail. -/
theorem numChars_shape (q : ℚ) :
    ∃ A T, numChars q = (if q.num < 0 then ['-'] else []) ++ (natChars A ++ T) := by
  rw [numChars]
  by_cases hk : decExp q.den = 0
  · rw [if_pos hk]
    exact ⟨_, [], by rw [List.append_nil]⟩
  · rw [if_neg hk]
    exact ⟨_, _, by rw [List.append_assoc]⟩

/-- The first character of a printed number: a minus sign or a digit. -/
theorem numChars_head (q : ℚ) :
    ∃ c t, numChars q = c :: t ∧ (c = '-' ∨ isDigitCh c = true) := by
  obtain ⟨A, T, hform⟩ := numChars_shape q
  obtain ⟨c₀, t₀, hA⟩ := List.exists_cons_of_ne_nil (natChars_ne_nil A)
  by_cases hneg : q.num < 0
  · rw [hform, if_pos hneg]
    exact ⟨'-', _, rfl, Or.inl rfl⟩
  · rw [hform, if_neg hneg, List.nil_append, hA]
    exact ⟨c₀, _, rfl,
      Or.inr (natChars_digits A c₀ (by rw [hA]; exact List.mem_cons_self _ _))⟩

/-- The first character of any printed value is a non-whitespace
character other than a closing bracket, closing brace, or comma. -/
theorem printValue_head (v : Value) :
    ∃ c t, printValue v = c :: t ∧ isWsChar c = false ∧ c ≠ ']' ∧ c ≠ '}' ∧ c ≠ ',' := by
  cases v with
  | null => exact ⟨'n', _, rfl, by decide, by decide, by decide, by decide⟩
  | bool b => cases b with
    | true => exact ⟨'t', _, rfl, by decide, by decide, by decide, by decide⟩
    | false => exact ⟨'f', _, rfl, by decide, by decide, by decide, by decide⟩
  | num q =>
    obtain ⟨c, t, hct, hc⟩ := numChars_head q
    refine ⟨c, t, hct, ?_, ?_, ?_, ?_⟩
    · rcases hc with rfl | hd
      · decide
      · exact (isDigitCh_head_facts hd).1
    · rcases hc with rfl | hd
      · decide
      · exact (isDigitCh_head_facts hd).2.2.2.2.2.2.2.1
    · rcases hc with rfl | hd
      · decide
      · exact (isDigitCh_head_facts hd).2.2.2.2.2.2.2.2.1
    · rcases hc with rfl | hd
      · decide
      · rintro rfl
        exact absurd hd (by decide)
  | str s => exact ⟨'"', _, rfl, by decide, by decide, by decide, by decide⟩
  | arr l => exact ⟨'[', _, rfl, by decide, by decide, by decide, by decide⟩
  | obj m => exact ⟨'{', _, rfl, by decide, by decide, by decide, by decide⟩

theorem countV_pos : ∀ v : Value, 1 ≤ countV v
  | .null | .bool _ | .num _ | .str _ => le_refl 1
  | .arr _ => Nat.le_add_left 1 _
  | .obj _ => Nat.le_add_left 1 _

theorem countL_pos : ∀ l : List Value, 1 ≤ countL l
  | [] => le_refl 1
  | v :: _rest => le_trans (countV_pos v) (Nat.le_add_right _ _)

theorem countM_pos : ∀ m : List (String × Value), 1 ≤ countM m
  | [] => le_refl 1
  | (_, v) :: _rest => le_trans (countV_pos v) (Nat.le_add_right _ _)

/-! ### The round trip: parsing a printed value -/

theorem string_mk_data (s : String) : String.mk s.data = s := rfl

mutual

theorem parse_printValue :
    ∀ (v : Value) (fuel : ℕ), countV v ≤ fuel → wfValue v = true →
      ∀ rest : List Char, DelimOk rest →
        parseValue fuel (printValue v ++ rest) = some (v, rest)
  | .null, fuel, hfuel, _, rest, _ => by
    simp only [countV] at hfuel
    obtain ⟨f, rfl⟩ : ∃ f, fuel = f + 1 := ⟨fuel - 1, by omega⟩
    show parseValue (f + 1) ('n' :: 'u' :: 'l' :: 'l' :: rest) = some (.null, rest)
    unfold parseValue
    rw [skipWs_cons (by decide)]
    simp
  | .bool true, fuel, hfuel, _, rest, _ => by
    simp only [countV] at hfuel
    obtain ⟨f, rfl⟩ : ∃ f, fuel = f + 1 := ⟨fuel - 1, by omega⟩
    show parseValue (f + 1) ('t' :: 'r' :: 'u' :: 'e' :: rest) = some (.bool true, rest)
    unfold parseValue
    rw [skipWs_cons (by decide)]
    simp
  | .bool false, fuel, hfuel, _, rest, _ => by
    simp only [countV] at hfuel
    obtain ⟨f, rfl⟩ : ∃ f, fuel = f + 1 := ⟨fuel - 1, by omega⟩
    show parseValue (f + 1) ('f' :: 'a' :: 'l' :: 's' :: 'e' :: rest)
      = some (.bool false, rest)
    unfold parseValue
    rw [skipWs_cons (by decide)]
    simp
  | .num q, fuel, hfuel, hwf, rest, hrest => by
    simp only [countV] at hfuel
    obtain ⟨f, rfl⟩ : ∃ f, fuel = f + 1 := ⟨fuel - 1, by omega⟩
    simp only [wfValue] at hwf
    obtain ⟨c, t, hct, hc⟩ := numChars_head q
    have hfacts : isWsChar c = false ∧ c ≠ 'n' ∧ c ≠ 't' ∧ c ≠ 'f' ∧ c ≠ '"' ∧
        c ≠ '[' ∧ c ≠ '{' := by
      rcases hc with rfl | hd
      · exact ⟨by decide, by decide, by decide, by decide, by decide, by decide, by decide⟩
      · obtain ⟨h₁, h₂, h₃, h₄, h₅, h₆, h₇, _⟩ := isDigitCh_head_facts hd
        exact ⟨h₁, h₂, h₃, h₄, h₅, h₆, h₇⟩
    have hinput : printValue (.num q) ++ rest = c :: (t ++ rest) := by
      show numChars q ++ rest = c :: (t ++ rest)
      rw [hct, List.cons_append]
    rw [hinput]
    unfold parseValue
    rw [skipWs_cons hfacts.1]
    dsimp only
    rw [if_neg hfacts.2.1, if_neg hfacts.2.2.1, if_neg hfacts.2.2.2.1,
      if_neg hfacts.2.2.2.2.1, if_neg hfacts.2.2.2.2.2.1, if_neg hfacts.2.2.2.2.2.2]
    rw [show c :: (t ++ rest) = numChars q ++ rest from by rw [hct, List.cons_append]]
    rw [parseNumTok_numChars q hwf rest hrest.toNumDelim]
    rfl
  | .str s, fuel, hfuel, _, rest, _ => by
    simp only [countV] at hfuel
    obtain ⟨f, rfl⟩ : ∃ f, fuel = f + 1 := ⟨fuel - 1, by omega⟩
    have hinput : printValue (.str s) ++ rest
        = '"' :: ((s.data.map escapeChar).flatten ++ '"' :: rest) := by
      show strChars s ++ rest = _
      rw [strChars]
      simp
    rw [hinput]
    unfold parseValue
    rw [skipWs_cons (by decide)]
    dsimp only
    rw [if_neg (by decide), if_neg (by decide), if_neg (by decide), if_pos rfl]
    rw [parseStrBody_roundtrip s.data rest]
    rfl
  | .arr l, fuel, hfuel, hwf, rest, hrest => by
    simp only [countV] at hfuel
    obtain ⟨f, rfl⟩ : ∃ f, fuel = f + 1 := ⟨fuel - 1, by omega⟩
    simp only [wfValue] at hwf
    have hinput : printValue (.arr l) ++ rest
        = '[' :: (printArr l ++ ']' :: rest) := by
      show ('[' :: printArr l ++ [']']) ++ rest = _
      simp
    rw [hinput]
    unfold parseValue
    rw [skipWs_cons (by decide)]
    dsimp only
    rw [if_neg (by decide), if_neg (by decide), if_neg (by decide), if_neg (by decide),
      if_pos rfl]
    cases l with
    | nil =>
      have h0 : printArr ([] : List Value) ++ ']' :: rest = ']' :: rest := rfl
      rw [h0, skipWs_cons (by decide)]
      rfl
    | cons v l' =>
      obtain ⟨c, t, hvct, hcws, hcne, -, -⟩ := printValue_head v
      have harr : printArr (v :: l') ++ ']' :: rest = c :: (t ++
          (match l' with
            | [] => ']' :: rest
            | _ :: _ => ',' :: (printArr l' ++ ']' :: rest))) := by
        cases l' with
        | nil =>
          show printValue v ++ ']' :: rest = _
          rw [hvct, List.cons_append]
        | cons w l'' =>
          show (printValue v ++ ',' :: printArr (w :: l'')) ++ ']' :: rest = _
          rw [hvct]
          simp
      rw [harr, skipWs_cons hcws]
      dsimp only
      rw [if_neg hcne, ← harr]
      have hcount : countL (v :: l') ≤ f := by omega
      rw [parse_printElems (v :: l') f hcount hwf (by simp) rest hrest]
      rfl
  | .obj m, fuel, hfuel, hwf, rest, hrest => by
    simp only [countV] at hfuel
    obtain ⟨f, rfl⟩ : ∃ f, fuel = f + 1 := ⟨fuel - 1, by omega⟩
    simp only [wfValue, Bool.and_eq_true] at hwf
    have hinput : printValue (.obj m) ++ rest
        = '{' :: (printObj m ++ '}' :: rest) := by
      show ('{' :: printObj m ++ ['}']) ++ rest = _
      simp
    rw [hinput]
    unfold parseValue
    rw [skipWs_cons (by decide)]
    dsimp only
    rw [if_neg (by decide), if_neg (by decide), if_neg (by decide), if_neg (by decide),
      if_neg (by decide), if_pos rfl]
    cases m with
    | nil =>
      have h0 : printObj ([] : List (String × Value)) ++ '}' :: rest = '}' :: rest := rfl
      rw [h0, skipWs_cons (by decide)]
      rfl
    | cons e m' =>
      obtain ⟨k, v, rfl⟩ : ∃ k v, e = (k, v) := ⟨e.1, e.2, rfl⟩
      have hobj : ∃ T, printObj ((k, v) :: m') ++ '}' :: rest = '"' :: T := by
        cases m' with
        | nil =>
          refine ⟨(k.data.map escapeChar).flatten ++ '"' :: (':' :: printValue v
            ++ '}' :: rest), ?_⟩
          show (strChars k ++ ':' :: printValue v) ++ '}' :: rest = _
          rw [strChars]
          simp
        | cons e' m'' =>
          refine ⟨(k.data.map escapeChar).flatten ++ '"' :: (':' :: printValue v
            ++ ',' :: (printObj (e' :: m'') ++ '}' :: rest)), ?_⟩
          show (strChars k ++ ':' :: printValue v ++ ',' :: printObj (e' :: m''))
            ++ '}' :: rest = _
          rw [strChars]
          simp
      obtain ⟨T, hT⟩ := hobj
      rw [hT, skipWs_cons (by decide)]
      dsimp only
      rw [if_neg (by decide), ← hT]
      have hcount : countM ((k, v) :: m') ≤ f := by omega
      rw [parse_printEntries ((k, v) :: m') f hcount hwf.1 (by simp) rest hrest]
      simp only [Option.map_some']
      rw [foldl_mapInsert_sorted _ hwf.2]

theorem parse_printElems :
    ∀ (l : List Value) (fuel : ℕ), countL l ≤ fuel → wfList l = true → l ≠ [] →
      ∀ rest : List Char, DelimOk rest →
        parseElems fuel (printArr l ++ ']' :: rest) = some (l, rest)
  | [], _, _, _, hne, _, _ => absurd rfl hne
  | v :: l', fuel, hfuel, hwf, _, rest, hrest => by
    simp only [countL] at hfuel
    have hvpos := countV_pos v
    have hlpos := countL_pos l'
    obtain ⟨f, rfl⟩ : ∃ f, fuel = f + 1 := ⟨fuel - 1, by omega⟩
    simp only [wfList, Bool.and_eq_true] at hwf
    unfold parseElems
    cases l' with
    | nil =>
      have hinput : printArr [v] ++ ']' :: rest = printValue v ++ ']' :: rest := rfl
      rw [hinput, parse_printValue v f (by omega) hwf.1 (']' :: rest)
        (delimOk_cons (Or.inr (Or.inl rfl)) rest)]
      simp only [Option.some_bind]
      rw [skipWs_cons (by decide)]
      rfl
    | cons w l'' =>
      have hinput : printArr (v :: w :: l'') ++ ']' :: rest
          = printValue v ++ (',' :: (printArr (w :: l'') ++ ']' :: rest)) := by
        show (printValue v ++ ',' :: printArr (w :: l'')) ++ ']' :: rest = _
        simp
      rw [hinput, parse_printValue v f (by omega) hwf.1 _
        (delimOk_cons (Or.inl rfl) _)]
      simp only [Option.some_bind]
      rw [skipWs_cons (by decide)]
      dsimp only
      rw [if_pos rfl]
      rw [parse_printElems (w :: l'') f (by omega) hwf.2
        (by simp) rest hrest]
      rfl

theorem parse_printEntries :
    ∀ (m : List (String × Value)) (fuel : ℕ), countM m ≤ fuel → wfVals m = true →
      m ≠ [] → ∀ rest : List Char, DelimOk rest →
        parseEntries fuel (printObj m ++ '}' :: rest) = some (m, rest)
  | [], _, _, _, hne, _, _ => absurd rfl hne
  | (k, v) :: m', fuel, hfuel, hwf, _, rest, hrest => by
    simp only [countM] at hfuel
    have hvpos := countV_pos v
    have hmpos := countM_pos m'
    obtain ⟨f, rfl⟩ : ∃ f, fuel = f + 1 := ⟨fuel - 1, by omega⟩
    simp only [wfVals, Bool.and_eq_true] at hwf
    unfold parseEntries
    cases m' with
    | nil =>
      have hinput : printObj [(k, v)] ++ '}' :: rest
          = '"' :: ((k.data.map escapeChar).flatten
            ++ '"' :: (':' :: (printValue v ++ '}' :: rest))) := by
        show (strChars k ++ ':' :: printValue v) ++ '}' :: rest = _
        rw [strChars]
        simp
      rw [hinput, skipWs_cons (by decide)]
      dsimp only
      rw [if_pos rfl,
        parseStrBody_roundtrip k.data (':' :: (printValue v ++ '}' :: rest))]
      simp only [Option.some_bind]
      rw [skipWs_cons (by decide)]
      dsimp only
      rw [if_pos rfl,
        parse_printValue v f (by omega) hwf.1 ('}' :: rest)
          (delimOk_cons (Or.inr (Or.inr rfl)) rest)]
      simp only [Option.some_bind]
      rw [skipWs_cons (by decide)]
      rfl
    | cons e' m'' =>
      have hinput : printObj ((k, v) :: e' :: m'') ++ '}' :: rest
          = '"' :: ((k.data.map escapeChar).flatten
            ++ '"' :: (':' :: (printValue v
              ++ ',' :: (printObj (e' :: m'') ++ '}' :: rest)))) := by
        show (strChars k ++ ':' :: printValue v ++ ',' :: printObj (e' :: m''))
          ++ '}' :: rest = _
        rw [strChars]
        simp
      rw [hinput, skipWs_cons (by decide)]
      dsimp only
      rw [if_pos rfl, parseStrBody_roundtrip k.data _]
      simp only [Option.some_bind]
      rw [skipWs_cons (by decide)]
      dsimp only
      rw [if_pos rfl,
        parse_printValue v f (by omega) hwf.1 _
          (delimOk_cons (Or.inl rfl) _)]
      simp only [Option.some_bind]
      rw [skipWs_cons (by decide)]
      dsimp only
      rw [if_pos rfl,
        parse_printEntries (e' :: m'') f (by omega)
          hwf.2 (by simp) rest hrest]
      rfl

end

/-! ### Fuel from the printed length, and the end-to-end round trip -/

mutual

theorem countV_le_print : ∀ v : Value, countV v ≤ (printValue v).length + 1
  | .null => by simp [countV, printValue]
  | .bool true => by simp [countV, printValue]
  | .bool false => by simp [countV, printValue]
  | .num q => by simp [countV]
  | .str s => by simp [countV]
  | .arr l => by
    have h := countL_le_print l
    simp only [countV, printValue, List.length_cons, List.length_append,
      List.length_singleton]
    omega
  | .obj m => by
    have h := countM_le_print m
    simp only [countV, printValue, List.length_cons, List.length_append,
      List.length_singleton]
    omega

theorem countL_le_print : ∀ l : List Value, countL l ≤ (printArr l).length + 2
  | [] => by simp [countL]
  | [v] => by
    have h := countV_le_print v
    simp only [countL, printArr]
    omega
  | v :: w :: l'' => by
    have h₁ := countV_le_print v
    have h₂ := countL_le_print (w :: l'')
    simp only [countL, printArr, List.length_append, List.length_cons] at h₂ ⊢
    omega

theorem countM_le_print : ∀ m : List (String × Value), countM m ≤ (printObj m).length + 2
  | [] => by simp [countM]
  | [(k, v)] => by
    have h := countV_le_print v
    simp only [countM, printObj, List.length_append, List.length_cons]
    omega
  | (k, v) :: e' :: m'' => by
    have h₁ := countV_le_print v
    have h₂ := countM_le_print (e' :: m'')
    simp only [countM, printObj, List.length_append, List.length_cons] at h₂ ⊢
    omega

end

/-- Serializing a well-formed value to compact JSON text and parsing the
text back yields the value, exactly. -/
theorem fromJsonStr_toJsonString (v : Value) (hwf : wfValue v = true) :
    fromJsonStr (toJsonString v) = some v := by
  unfold fromJsonStr toJsonString
  have hdata : (String.mk (printValue v)).data = printValue v := rfl
  rw [hdata]
  have h := parse_printValue v ((printValue v).length + 1) (countV_le_print v) hwf []
    delimOk_nil
  rw [List.append_nil] at h
  rw [h]
  rfl

/-- C9: for every Value with no NaN/Infinity components — rendered in
the model as `wfValue`: every number has a finite decimal representation
(true of every finite `f64`), and every object carries serde's sorted
`BTreeMap` key invariant — serializing with `convert.to_json` at
`pretty = false` produces the compact text, and `convert.parse_json` on
that text returns a structurally equal value with no `error` key in its
output. -/
theorem json_roundtrip (v : Value) (hwf : wfValue v = true) (toPretty : Value → String)
    (rt₁ rt₂ : Option Rt) :
    ConvertToJson.execute toPretty [("value", v), ("pretty", .bool false)] rt₁
      = [("result", .str (toJsonString v))] ∧
    ConvertParseJson.execute [("string", .str (toJsonString v))] rt₂
      = [("result", v)] := by
  constructor
  · rfl
  · have hdec : (get_input asStr [("string", .str (toJsonString v))] "string").getD ""
        = toJsonString v := rfl
    unfold ConvertParseJson.execute
    rw [hdec]
    dsimp only
    rw [fromJsonStr_toJsonString v hwf]

/-- C9 witness: the round trip applied to a concrete nested value with
an escaped string, a negative number, null, a boolean, and a sorted
two-key object. -/
theorem json_roundtrip_witness :
    ConvertParseJson.execute
        [("string", .str (toJsonString (.obj [("a", .arr [.num (-3), .null, .bool true]),
          ("b", .str "x\"y\n")])))] none
      = [("result", .obj [("a", .arr [.num (-3), .null, .bool true]),
          ("b", .str "x\"y\n")])] :=
  (json_roundtrip (.obj [("a", .arr [.num (-3), .null, .bool true]),
    ("b", .str "x\"y\n")]) (by decide) (fun _ => "") none none).2

end MB
